import Mathlib

/-!
# Verification of the graph-store core

A shallow embedding of the graph-store's entity engine, secondary-index
engine, relationship engine, chunked KV layer, read cache and
backup/restore collaborator, translated from the TypeScript source
(`query-handler`, `relationship-handler`, `index-handler`,
`batched-storage`, `read-cache`, `store-handler`).

Modelling conventions:
* JS objects (`Record<string, _>`) are association lists with unique keys
  maintained by replace-or-append assignment, which matches JS insertion
  order and overwrite semantics.
* Entity payload scalars (`string | number`) are carried as their JS
  string coercion, so the index key `` `${p}--${v}` `` is plain string
  concatenation.
* JS `Set<string>` is a duplicate-free list in insertion order.
* The KV backend is an association list with unique keys; `list({prefix})`
  filters by prefix (enumeration order is irrelevant to the properties
  proved here, which are all stated at the level of the key-to-value
  mapping).
* `async`/`await` sequences, transactions and `Promise.all` arrays are
  executed sequentially in the order the source lists the operations;
  there is no failure model for the KV backend.
* JS truthiness is modelled where the source branches on it (`if (first)`,
  `if (cached)`, `?.` and `??`).
-/

namespace GraphStore

/-! ## Records (JS objects) -/

/-- A JS object / `Record<string, α>`: association list in insertion
order. Uniqueness of keys is maintained by `Rec.set`. -/
abbrev Rec (α : Type) := List (String × α)

namespace Rec

/-- Property read: first binding wins (lists built with `set` have unique
keys, so this is the binding). -/
def get {α : Type} (r : Rec α) (k : String) : Option α :=
  (r.find? (fun p => p.1 = k)).map Prod.snd

/-- JS assignment `r[k] = v`: overwrite in place if the key exists,
otherwise append (insertion order). -/
def set {α : Type} (r : Rec α) (k : String) (v : α) : Rec α :=
  match r with
  | [] => [(k, v)]
  | (k', v') :: rest =>
    if k' = k then (k', v) :: rest else (k', v') :: set rest k v

/-- Does the record have the key? -/
def hasKey {α : Type} (r : Rec α) (k : String) : Bool :=
  (r.find? (fun p => p.1 = k)).isSome

/-- `Object.keys` (insertion order). -/
def keys {α : Type} (r : Rec α) : List String := r.map Prod.fst

/-- JS spread merge `{...a, ...b}`: assign every binding of `b` onto `a`. -/
def merge {α : Type} (a b : Rec α) : Rec α :=
  b.foldl (fun acc p => acc.set p.1 p.2) a

/-- Remove a key entirely (used for KV deletes). -/
def del {α : Type} (r : Rec α) (k : String) : Rec α :=
  r.filter (fun p => p.1 ≠ k)

theorem get_set_eq {α : Type} (r : Rec α) (k : String) (v : α) :
    (r.set k v).get k = some v := by
  induction r with
  | nil => simp [set, get, List.find?]
  | cons hd tl ih =>
    obtain ⟨k₀, v₀⟩ := hd
    by_cases h : k₀ = k
    · simp [set, get, List.find?, h]
    · simpa [set, get, List.find?, h] using ih

theorem get_set_ne {α : Type} (r : Rec α) (k k' : String) (v : α) (h : k' ≠ k) :
    (r.set k v).get k' = r.get k' := by
  have hkk : ¬(k = k') := fun hh => h hh.symm
  induction r with
  | nil => simp [set, get, List.find?, hkk]
  | cons hd tl ih =>
    obtain ⟨k₀, v₀⟩ := hd
    by_cases hk : k₀ = k
    · subst hk
      simp [set, get, List.find?, hkk]
    · by_cases hk' : k₀ = k'
      · subst hk'
        simp [set, get, List.find?, hk, h]
      · simpa [set, get, List.find?, hk, hk'] using ih

theorem get_del_eq {α : Type} (r : Rec α) (k : String) :
    (r.del k).get k = none := by
  induction r with
  | nil => simp [del, get]
  | cons hd tl ih =>
    obtain ⟨k₀, v₀⟩ := hd
    by_cases h : k₀ = k
    · subst h; simpa [del] using ih
    · simp only [del] at ih ⊢
      simp [get, List.find?, h, ih]

theorem get_del_ne {α : Type} (r : Rec α) (k k' : String) (h : k' ≠ k) :
    (r.del k).get k' = r.get k' := by
  induction r with
  | nil => simp [del]
  | cons hd tl ih =>
    obtain ⟨k₀, v₀⟩ := hd
    by_cases hk : k₀ = k
    · subst hk
      have hne : ¬(k₀ = k') := fun hh => h hh.symm
      simpa [del, get, List.find?, hne] using ih
    · by_cases hk' : k₀ = k'
      · subst hk'
        simp [del, get, List.find?, hk, h]
      · simpa [del, get, List.find?, hk, hk'] using ih

theorem get_isSome_iff_mem_keys {α : Type} (r : Rec α) (k : String) :
    (r.get k).isSome ↔ k ∈ r.keys := by
  induction r with
  | nil => simp [get, keys]
  | cons hd tl ih =>
    obtain ⟨k₀, v₀⟩ := hd
    by_cases h : k₀ = k
    · subst h
      simp [get, keys, List.find?]
    · have h' : ¬ k = k₀ := fun hh => h hh.symm
      simp only [get, keys, List.map_cons, List.mem_cons, List.find?]
      rw [show decide (k₀ = k) = false from by simp [h]]
      rw [show (Option.map Prod.snd (List.find? (fun p => decide (p.1 = k)) tl)).isSome
        ↔ k ∈ keys tl from ih]
      simp [keys, h']

theorem mem_keys_set {α : Type} (r : Rec α) (k k' : String) (v : α) :
    k' ∈ (r.set k v).keys ↔ k' = k ∨ k' ∈ r.keys := by
  induction r with
  | nil => simp [set, keys]
  | cons hd tl ih =>
    obtain ⟨k₀, v₀⟩ := hd
    by_cases h : k₀ = k
    · subst h
      simp only [set, if_true]
      simp only [keys, List.map_cons, List.mem_cons]
      tauto
    · simp only [set, if_neg h, keys, List.map_cons, List.mem_cons]
      have hh := ih
      simp only [keys] at hh
      rw [hh]
      tauto

end Rec

/-- An entity payload: string-keyed object of scalar values (carried as
their string coercion). -/
abbrev Obj := Rec String

/-- An index declaration `{ id, property }` (`index-request.ts`). -/
structure Index where
  id : String
  property : String
deriving DecidableEq, Repr

/-- A value stored in the KV backend (entity objects, relationship
neighbor sets, relationship-name mappings, index declarations) or held
in the read cache; `table` is the full list-result that `listQuery`
caches under a prefix key. -/
inductive KVal where
  | obj (o : Obj)
  | set (s : List String)
  | str (s : String)
  | idx (i : Index)
  | table (m : List (String × KVal))

/-- JS truthiness of a stored value: objects, sets, maps and index
records are truthy; a string is truthy iff nonempty. -/
def KVal.truthy : KVal → Bool
  | .obj _ => true
  | .set _ => true
  | .idx _ => true
  | .table _ => true
  | .str s => s ≠ ""

/-! ## KV backend -/

/-- The per-partition KV image. -/
abbrev Kv := Rec KVal

namespace Kv

def get (kv : Kv) (k : String) : Option KVal := Rec.get kv k

def put (kv : Kv) (k : String) (v : KVal) : Kv := Rec.set kv k v

/-- `storage.delete(key)`: returns whether the key existed. -/
def delOne (kv : Kv) (k : String) : Kv × Bool :=
  (Rec.del kv k, (get kv k).isSome)

/-- `storage.delete(keys)`: deletes all, returns the number deleted. -/
def delMany (kv : Kv) (ks : List String) : Kv × Nat :=
  ks.foldl
    (fun (acc : Kv × Nat) k =>
      ((delOne acc.1 k).1, if (delOne acc.1 k).2 then acc.2 + 1 else acc.2))
    (kv, 0)

/-- String prefix test (on the character lists, which the kernel can
evaluate). -/
def strPrefix (pre s : String) : Bool :=
  pre.data.isPrefixOf s.data

/-- `storage.list({prefix})` restricted to the key-to-value entries; the
DO backend returns them key-sorted, but every property proved here is
insensitive to enumeration order, so store order is kept. -/
def listPrefix (kv : Kv) (pre : String) : List (String × KVal) :=
  kv.filter (fun p => strPrefix pre p.1)

theorem get_put_eq (kv : Kv) (k : String) (v : KVal) :
    (kv.put k v).get k = some v := Rec.get_set_eq kv k v

theorem get_put_ne (kv : Kv) (k k' : String) (v : KVal) (h : k' ≠ k) :
    (kv.put k v).get k' = kv.get k' := Rec.get_set_ne kv k k' v h

/-- The KV component of a bulk delete is the fold of single deletes (the
counter does not influence it). -/
theorem delMany_fst (kv : Kv) (ks : List String) :
    (kv.delMany ks).1 = ks.foldl (fun kv k => (delOne kv k).1) kv := by
  have haux : ∀ (ks : List String) (acc : Kv × Nat),
      (ks.foldl
        (fun (acc : Kv × Nat) k =>
          ((delOne acc.1 k).1, if (delOne acc.1 k).2 then acc.2 + 1 else acc.2))
        acc).1 = ks.foldl (fun kv k => (delOne kv k).1) acc.1 := by
    intro ks
    induction ks with
    | nil => intro acc; rfl
    | cons k rest ih => intro acc; simp only [List.foldl_cons]; rw [ih]
  exact haux ks (kv, 0)

/-- A left fold of single puts, read back at a key: a key written along
the way is present; an untouched key keeps its prior binding. -/
theorem get_foldl_put_isSome (ups : List (String × KVal)) (kv : Kv) (k : String) :
    ((ups.foldl (fun kv p => kv.put p.1 p.2) kv).get k).isSome
      ↔ k ∈ ups.map Prod.fst ∨ (kv.get k).isSome := by
  induction ups generalizing kv with
  | nil => simp
  | cons p rest ih =>
    obtain ⟨k₀, v₀⟩ := p
    simp only [List.foldl_cons, List.map_cons, List.mem_cons]
    rw [ih]
    by_cases h : k = k₀
    · subst h
      simp [get_put_eq]
    · simp [get_put_ne kv k₀ k v₀ h, h]

/-- A left fold of single puts all carrying the same value `v`: every
written key reads back `v`, every other key is untouched. -/
theorem get_foldl_put_const (ups : List (String × KVal)) (v : KVal) (kv : Kv)
    (k : String) (hv : ∀ p ∈ ups, p.2 = v) :
    (ups.foldl (fun kv p => kv.put p.1 p.2) kv).get k
      = if k ∈ ups.map Prod.fst then some v else kv.get k := by
  induction ups generalizing kv with
  | nil => simp
  | cons p rest ih =>
    obtain ⟨k₀, v₀⟩ := p
    have hv₀ : v₀ = v := hv (k₀, v₀) (List.mem_cons_self _ _)
    subst hv₀
    simp only [List.foldl_cons, List.map_cons, List.mem_cons]
    rw [ih _ (fun q hq => hv q (List.mem_cons_of_mem _ hq))]
    by_cases hrest : k ∈ rest.map Prod.fst
    · simp [hrest]
    · by_cases h : k = k₀
      · subst h
        simp [hrest, get_put_eq]
      · simp [hrest, h, get_put_ne kv k₀ k _ h]

end Kv

/-! ## Read cache (`read-cache.ts`)

`InMemoryReadCache` is a `Map<string, any>`; `get` cannot distinguish a
stored `undefined` from an absent key, so the cache is an association
list of optional values and `get` flattens. -/

abbrev Cache := Rec (Option KVal)

namespace Cache

/-- `cache.get(key)` (may report a stored `undefined` as a miss, exactly
as the `Map` does). -/
def get (c : Cache) (k : String) : Option KVal := (Rec.get c k).join

/-- A cache read that passes the caller's `if (cached)` truthiness
check. -/
def hit (c : Cache) (k : String) : Option KVal :=
  match get c k with
  | some v => if v.truthy then some v else none
  | none => none

def set (c : Cache) (k : String) (v : Option KVal) : Cache := Rec.set c k v

/-- `cache.deleteAll()`. -/
def clear (_ : Cache) : Cache := []

end Cache

/-- The cache never serves a value that differs from the current KV
value for its key. -/
def Coherent (c : Cache) (kv : Kv) : Prop :=
  ∀ k v, c.hit k = some v → kv.get k = some v

theorem coherent_empty (kv : Kv) : Coherent [] kv := by
  intro k v h
  simp [Cache.hit, Cache.get, Rec.get] at h

/-! ## JS `Set<string>` (insertion order, duplicate-free) -/

/-- `set.add(x)`. -/
def setAdd (s : List String) (x : String) : List String :=
  if x ∈ s then s else s ++ [x]

/-- `set.delete(x)`. -/
def setDel (s : List String) (x : String) : List String :=
  s.filter (fun y => y ≠ x)

/-- `new Set(array)`: first occurrence wins, insertion order. -/
def jsSetOf (l : List String) : List String :=
  l.foldl setAdd []

/-! ## Chunked KV (`batched-storage.ts`)

`ITEM_LIMIT = 128`; a key list longer than the limit is split with
`lodash.chunk` into consecutive chunks of at most 128 keys. -/

/-- The structural worker of `chunk128`; the fuel is an upper bound on
the number of split steps (the list length always suffices). -/
def chunk128F {α : Type} : Nat → List α → List (List α)
  | _, [] => []
  | 0, l => [l]
  | fuel + 1, x :: xs => ((x :: xs).take 128) :: chunk128F fuel ((x :: xs).drop 128)

/-- `lodash.chunk(l, 128)`: consecutive chunks of 128 elements, the last
one shorter. -/
def chunk128 {α : Type} (l : List α) : List (List α) :=
  chunk128F l.length l

/-- `keys.length > ITEM_LIMIT ? chunk(keys, ITEM_LIMIT) : [keys]`. -/
def chunksOf {α : Type} (l : List α) : List (List α) :=
  if l.length > 128 then chunk128 l else [l]

theorem chunk128F_flatten {α : Type} (fuel : Nat) (l : List α)
    (h : l.length ≤ fuel) : (chunk128F fuel l).flatten = l := by
  induction fuel generalizing l with
  | zero =>
    have : l = [] := List.length_eq_zero.mp (Nat.le_zero.mp h)
    subst this
    simp [chunk128F]
  | succ fuel ih =>
    cases l with
    | nil => simp [chunk128F]
    | cons x xs =>
      rw [chunk128F, List.flatten_cons, ih, List.take_append_drop]
      simp only [List.length_drop, List.length_cons]
      simp only [List.length_cons] at h
      omega

theorem chunk128_flatten {α : Type} (l : List α) : (chunk128 l).flatten = l :=
  chunk128F_flatten l.length l le_rfl

theorem chunk128F_le {α : Type} (fuel : Nat) (l : List α) (h : l.length ≤ fuel) :
    ∀ c ∈ chunk128F fuel l, c.length ≤ 128 := by
  induction fuel generalizing l with
  | zero =>
    have : l = [] := List.length_eq_zero.mp (Nat.le_zero.mp h)
    subst this
    simp [chunk128F]
  | succ fuel ih =>
    cases l with
    | nil => simp [chunk128F]
    | cons x xs =>
      rw [chunk128F]
      intro c hc
      rcases List.mem_cons.mp hc with hc | hc
      · subst hc; simp
      · refine ih _ ?_ c hc
        simp only [List.length_drop, List.length_cons]
        simp only [List.length_cons] at h
        omega

theorem chunk128_le {α : Type} (l : List α) :
    ∀ c ∈ chunk128 l, c.length ≤ 128 :=
  chunk128F_le l.length l le_rfl

theorem chunksOf_flatten {α : Type} (l : List α) : (chunksOf l).flatten = l := by
  unfold chunksOf
  split
  · exact chunk128_flatten l
  · simp

/-- The combined handler state: the KV image, the read cache, and the
index engine's in-memory snapshot of declarations. -/
structure S where
  kv : Kv
  cache : Cache
  idx : Rec Index

/-- The merged result map of `doChunkedRead` (a `Map<string, T | undefined>`;
an entry may be present with value `undefined`). -/
abbrev Items := Rec (Option KVal)

namespace Batched

/-- The per-chunk cache-consultation loop of `doChunkedRead`: keys whose
cached value passes `if (cached)` are copied into `items`. -/
def hitPass (cache : Cache) (items : Items) : List String → Items
  | [] => items
  | k :: ks =>
    match cache.hit k with
    | some v => hitPass cache (items.set k (some v)) ks
    | none => hitPass cache items ks

/-- Folding the `storage.get(missing)` results into `items`. -/
def addResults (items : Items) : List (String × KVal) → Items
  | [] => items
  | (k, v) :: rest => addResults (items.set k (some v)) rest

/-- Folding the `storage.get(missing)` results into the cache
(`this.cache.set(k, v)`). -/
def cacheResults (cache : Cache) : List (String × KVal) → Cache
  | [] => cache
  | (k, v) :: rest => cacheResults (cache.set k (some v)) rest

/-- One chunk of `doChunkedRead`: cache hits first, then a bulk KV read
of the still-missing keys, whose results are merged into `items` and
written back to the cache. -/
def readChunk (kv : Kv) (p : Items × Cache) (ck : List String) : Items × Cache :=
  let items := hitPass p.2 p.1 ck
  let missing := ck.filter (fun k => ¬ items.hasKey k)
  let results := missing.filterMap (fun k => (kv.get k).map ((k, ·)))
  (addResults items results, cacheResults p.2 results)

/-- The final loop of `doChunkedRead`: every requested key still missing
from `items` is recorded (and cached) as `undefined`. -/
def fillMissing : Items × Cache → List String → Items × Cache
  | p, [] => p
  | (items, cache), k :: ks =>
    if items.hasKey k then fillMissing (items, cache) ks
    else fillMissing (items.set k none, cache.set k none) ks

/-- `BatchedStorage.doChunkedRead`. -/
def doChunkedRead (s : S) (keys : List String) : Items × S :=
  let p := (chunksOf keys).foldl (readChunk s.kv) ([], s.cache)
  let p := fillMissing p keys
  (p.1, { s with cache := p.2 })

/-- One chunk of `doChunkedWrite`: `storage.put(updates)` followed by
`cache.set` for each written entry. -/
def writeChunk (entries : Rec KVal) (s : S) (ck : List String) : S :=
  let updates := ck.filterMap (fun k => (entries.get k).map ((k, ·)))
  { s with
    kv := updates.foldl (fun kv p => kv.put p.1 p.2) s.kv
    cache := updates.foldl (fun c p => c.set p.1 (some p.2)) s.cache }

/-- `BatchedStorage.doChunkedWrite`: invalidate the whole cache, then
write the entries chunk by chunk. -/
def doChunkedWrite (s : S) (entries : Rec KVal) : S :=
  let s := { s with cache := s.cache.clear }
  if entries.keys.length = 0 then s
  else (chunksOf entries.keys).foldl (writeChunk entries) s

/-- `BatchedStorage.doChunkedDelete` (the argument is a `Set<string>`,
already duplicate-free): invalidate the whole cache, then delete the
keys chunk by chunk. -/
def doChunkedDelete (s : S) (keys : List String) : S :=
  let s := { s with cache := s.cache.clear }
  if keys.length = 0 then s
  else
    (chunksOf keys).foldl
      (fun s ck => { s with kv := (s.kv.delMany ck).1 }) s

end Batched

/-! ### Characterisation of the chunked read

What a cache-integrated read of one key yields: the (truthy) cached
value if present, otherwise the KV value. -/

/-- The value a read-through lookup of `k` produces. -/
def readSpec (c : Cache) (kv : Kv) (k : String) : Option KVal :=
  match c.hit k with
  | some v => some v
  | none => kv.get k

namespace Rec

theorem hasKey_eq_isSome {α : Type} (r : Rec α) (k : String) :
    r.hasKey k = (r.get k).isSome := by
  simp [hasKey, get]

end Rec

namespace Cache

theorem hit_set_some (c : Cache) (k : String) (v : KVal) :
    (c.set k (some v)).hit k = if v.truthy then some v else none := by
  simp [hit, get, set, Rec.get_set_eq]

theorem hit_set_none (c : Cache) (k : String) :
    (c.set k none).hit k = none := by
  simp [hit, get, set, Rec.get_set_eq]

theorem hit_set_ne (c : Cache) (k k' : String) (v : Option KVal) (h : k' ≠ k) :
    (c.set k v).hit k' = c.hit k' := by
  simp [hit, get, set, Rec.get_set_ne c k k' v h]

end Cache

namespace Batched

theorem hitPass_get (c : Cache) (items : Items) (ck : List String) (k : String) :
    (hitPass c items ck).get k =
      match c.hit k with
      | some v => if k ∈ ck then some (some v) else items.get k
      | none => items.get k := by
  induction ck generalizing items with
  | nil => cases h : c.hit k <;> simp [hitPass, h]
  | cons k' ks ih =>
    by_cases hk : k = k'
    · subst hk
      cases h : c.hit k with
      | some v =>
        simp only [hitPass, h]
        rw [ih]
        by_cases hks : k ∈ ks
        · simp [h, hks]
        · simp [h, hks, Rec.get_set_eq]
      | none =>
        simp only [hitPass, h]
        rw [ih, h]
    · cases h' : c.hit k' with
      | some v' =>
        simp only [hitPass, h']
        rw [ih]
        cases h : c.hit k with
        | some v =>
          by_cases hks : k ∈ ks
          · simp [h, hks, hk]
          · simp [h, hks, hk, Rec.get_set_ne _ _ _ _ hk]
        | none => simp [h, Rec.get_set_ne _ _ _ _ hk]
      | none =>
        simp only [hitPass, h']
        rw [ih]
        cases h : c.hit k <;> simp [h, hk]

theorem addResults_get (kv : Kv) (items : Items) (rs : List (String × KVal))
    (k : String) (hkv : ∀ p ∈ rs, kv.get p.1 = some p.2) :
    (addResults items rs).get k =
      if k ∈ rs.map Prod.fst then (kv.get k).map some else items.get k := by
  induction rs generalizing items with
  | nil => simp [addResults]
  | cons p rest ih =>
    obtain ⟨k', v'⟩ := p
    have hk' : kv.get k' = some v' := hkv (k', v') (List.mem_cons_self _ _)
    simp only [addResults]
    rw [ih _ (fun q hq => hkv q (List.mem_cons_of_mem _ hq))]
    by_cases hrest : k ∈ rest.map Prod.fst
    · simp [hrest]
    · by_cases hk : k = k'
      · subst hk
        simp [hrest, Rec.get_set_eq, hk']
      · simp [hrest, hk, Rec.get_set_ne _ _ _ _ hk]

theorem cacheResults_spec (kv : Kv) (c : Cache) (rs : List (String × KVal))
    (hrs : ∀ p ∈ rs, kv.get p.1 = some p.2 ∧ readSpec c kv p.1 = some p.2) :
    ∀ k, readSpec (cacheResults c rs) kv k = readSpec c kv k := by
  induction rs generalizing c with
  | nil => intro k; simp [cacheResults]
  | cons p rest ih =>
    obtain ⟨k', v'⟩ := p
    obtain ⟨hkv, hsp⟩ := hrs (k', v') (List.mem_cons_self _ _)
    intro k
    have hstep : ∀ j, readSpec (c.set k' (some v')) kv j = readSpec c kv j := by
      intro j
      by_cases hj : j = k'
      · subst hj
        by_cases ht : v'.truthy
        · calc readSpec (c.set j (some v')) kv j = some v' := by
                simp [readSpec, Cache.hit_set_some, ht]
            _ = readSpec c kv j := hsp.symm
        · calc readSpec (c.set j (some v')) kv j = kv.get j := by
                simp [readSpec, Cache.hit_set_some, ht]
            _ = some v' := hkv
            _ = readSpec c kv j := hsp.symm
      · simp [readSpec, Cache.hit_set_ne _ _ _ _ hj]
    calc readSpec (cacheResults (c.set k' (some v')) rest) kv k
        = readSpec (c.set k' (some v')) kv k := by
          refine ih _ (fun q hq => ?_) k
          obtain ⟨hq1, hq2⟩ := hrs q (List.mem_cons_of_mem _ hq)
          exact ⟨hq1, (hstep q.1).trans hq2⟩
      _ = readSpec c kv k := hstep k

theorem cacheResults_coherent (kv : Kv) (c : Cache) (rs : List (String × KVal))
    (hc : Coherent c kv) (hrs : ∀ p ∈ rs, kv.get p.1 = some p.2) :
    Coherent (cacheResults c rs) kv := by
  induction rs generalizing c with
  | nil => exact hc
  | cons p rest ih =>
    obtain ⟨k', v'⟩ := p
    have hk' : kv.get k' = some v' := hrs (k', v') (List.mem_cons_self _ _)
    refine ih _ (fun k v hkv => ?_) (fun q hq => hrs q (List.mem_cons_of_mem _ hq))
    by_cases hk : k = k'
    · subst hk
      rw [Cache.hit_set_some] at hkv
      split at hkv
      · cases hkv; exact hk'
      · cases hkv
    · rw [Cache.hit_set_ne _ _ _ _ hk] at hkv
      exact hc k v hkv

theorem fillMissing_fst_get (p : Items × Cache) (ks : List String) (k : String) :
    (fillMissing p ks).1.get k =
      if k ∈ ks ∧ (Rec.get p.1 k).isNone then some none else p.1.get k := by
  obtain ⟨items, cache⟩ := p
  induction ks generalizing items cache with
  | nil => simp [fillMissing]
  | cons k' rest ih =>
    simp only [fillMissing]
    by_cases hhas : items.hasKey k'
    · have hget : (Rec.get items k').isNone = false := by
        rw [Rec.hasKey_eq_isSome] at hhas
        cases hg : Rec.get items k' with
        | none => rw [hg] at hhas; simp at hhas
        | some v => simp
      rw [if_pos hhas, ih]
      by_cases hk : k = k'
      · subst hk
        simp [hget]
      · by_cases hn : (Rec.get items k).isNone = true
        · by_cases hmem : k ∈ rest
          · simp [hmem, List.mem_cons_of_mem k' hmem, hn]
          · have hc : ¬ k ∈ k' :: rest := by simp [List.mem_cons, hk, hmem]
            simp [hmem, hc, hn]
        · simp [hn]
    · have hget : Rec.get items k' = none := by
        rw [Rec.hasKey_eq_isSome] at hhas
        exact Option.not_isSome_iff_eq_none.mp (by simpa using hhas)
      rw [if_neg hhas, ih]
      by_cases hk : k = k'
      · subst hk
        simp [Rec.get_set_eq, hget]
      · rw [Rec.get_set_ne _ _ _ _ hk]
        by_cases hn : (Rec.get items k).isNone = true
        · by_cases hmem : k ∈ rest
          · simp [hmem, List.mem_cons_of_mem k' hmem, hn]
          · have hc : ¬ k ∈ k' :: rest := by simp [List.mem_cons, hk, hmem]
            simp [hmem, hc, hn]
        · simp [hn]

/-- Invariant carried through the per-chunk fold of `doChunkedRead`:
entries of `items` belong to the processed keys and record the
read-through value computed against the initial cache `c₀`, cache
updates do not change what a read-through lookup yields, and every
processed key with a non-`undefined` read-through value is present. -/
structure RInv (c₀ : Cache) (kv : Kv) (processed : List String)
    (items : Items) (cache : Cache) : Prop where
  dom : ∀ k, (items.get k).isSome → k ∈ processed
  spec : ∀ k, readSpec cache kv k = readSpec c₀ kv k
  correct : ∀ k w, items.get k = some w →
    ∃ v, w = some v ∧ readSpec c₀ kv k = some v
  complete : ∀ k, k ∈ processed → ∀ v, readSpec c₀ kv k = some v →
    items.get k = some (some v)

theorem RInv.init (c₀ : Cache) (kv : Kv) : RInv c₀ kv [] [] c₀ where
  dom := by intro k h; simp [Rec.get] at h
  spec := fun _ => rfl
  correct := by intro k w h; simp [Rec.get] at h
  complete := by intro k h; simp at h

theorem readChunk_inv (c₀ : Cache) (kv : Kv) (processed : List String)
    (items : Items) (cache : Cache) (ck : List String)
    (h : RInv c₀ kv processed items cache) :
    RInv c₀ kv (processed ++ ck) (readChunk kv (items, cache) ck).1
      (readChunk kv (items, cache) ck).2 := by
  simp only [readChunk]
  set items₁ := hitPass cache items ck with hitems₁
  set missing := ck.filter (fun k => ¬ items₁.hasKey k) with hmissing
  set results := missing.filterMap (fun k => (kv.get k).map ((k, ·))) with hresults
  have f1 : ∀ p ∈ results, kv.get p.1 = some p.2 ∧ p.1 ∈ missing := by
    intro p hp
    rw [hresults, List.mem_filterMap] at hp
    obtain ⟨k, hk, hkp⟩ := hp
    cases hkv : kv.get k with
    | none => rw [hkv] at hkp; cases hkp
    | some v =>
      rw [hkv] at hkp
      cases hkp
      exact ⟨hkv, hk⟩
  have f2 : ∀ k ∈ missing, ¬ items₁.hasKey k ∧ k ∈ ck := by
    intro k hk
    rw [hmissing, List.mem_filter] at hk
    exact ⟨by simpa using hk.2, hk.1⟩
  have f4 : ∀ k ∈ missing, cache.hit k = none := by
    intro k hk
    obtain ⟨hnk, hck⟩ := f2 k hk
    cases hh : cache.hit k with
    | none => rfl
    | some v =>
      exfalso
      apply hnk
      rw [Rec.hasKey_eq_isSome, hitems₁, hitPass_get, hh]
      simp [hck]
  have f5 : ∀ p ∈ results, readSpec cache kv p.1 = some p.2 := by
    intro p hp
    obtain ⟨hkv, hm⟩ := f1 p hp
    rw [readSpec, f4 p.1 hm]
    exact hkv
  have hg : ∀ k, (addResults items₁ results).get k =
      if k ∈ results.map Prod.fst then (kv.get k).map some else items₁.get k :=
    fun k => addResults_get kv items₁ results k (fun p hp => (f1 p hp).1)
  have hmem_results : ∀ k, k ∈ missing → ∀ v, kv.get k = some v →
      k ∈ results.map Prod.fst := by
    intro k hk v hv
    rw [hresults, List.mem_map]
    refine ⟨(k, v), ?_, rfl⟩
    rw [List.mem_filterMap]
    exact ⟨k, hk, by rw [hv]; rfl⟩
  refine ⟨?_, ?_, ?_, ?_⟩
  · -- dom
    intro k hk
    rw [hg] at hk
    split at hk
    · next hres =>
      rw [List.mem_map] at hres
      obtain ⟨p, hp, hpk⟩ := hres
      subst hpk
      exact List.mem_append_right _ (f2 p.1 (f1 p hp).2).2
    · rw [hitems₁, hitPass_get] at hk
      cases hh : cache.hit k with
      | some v =>
        rw [hh] at hk
        by_cases hck : k ∈ ck
        · exact List.mem_append_right _ hck
        · simp only [if_neg hck] at hk
          exact List.mem_append_left _ (h.dom k hk)
      | none =>
        rw [hh] at hk
        exact List.mem_append_left _ (h.dom k hk)
  · -- spec
    intro k
    rw [cacheResults_spec kv cache results (fun p hp => ⟨(f1 p hp).1, f5 p hp⟩) k]
    exact h.spec k
  · -- correct
    intro k w hk
    rw [hg] at hk
    split at hk
    · next hres =>
      cases hkv : kv.get k with
      | none => rw [hkv] at hk; cases hk
      | some v =>
        rw [hkv] at hk
        cases hk
        refine ⟨v, rfl, ?_⟩
        rw [List.mem_map] at hres
        obtain ⟨p, hp, hpk⟩ := hres
        rw [← h.spec k, readSpec, f4 k (hpk ▸ (f1 p hp).2)]
        exact hkv
    · rw [hitems₁, hitPass_get] at hk
      cases hh : cache.hit k with
      | some v =>
        rw [hh] at hk
        by_cases hck : k ∈ ck
        · simp only [if_pos hck] at hk
          cases hk
          exact ⟨v, rfl, by rw [← h.spec k, readSpec, hh]⟩
        · simp only [if_neg hck] at hk
          exact h.correct k w hk
      | none =>
        rw [hh] at hk
        exact h.correct k w hk
  · -- complete
    intro k hk v hv
    rw [hg]
    by_cases hres : k ∈ results.map Prod.fst
    · rw [if_pos hres]
      rw [List.mem_map] at hres
      obtain ⟨p, hp, hpk⟩ := hres
      have hmiss : k ∈ missing := hpk ▸ (f1 p hp).2
      have hspec : readSpec c₀ kv k = kv.get k := by
        rw [← h.spec k, readSpec, f4 k hmiss]
      have hkvk : kv.get k = some v := by rw [← hspec, hv]
      rw [hkvk]
      rfl
    · rw [if_neg hres, hitems₁, hitPass_get]
      cases hh : cache.hit k with
      | some w =>
        have hw : w = v := by
          have hx : readSpec cache kv k = some w := by rw [readSpec, hh]
          rw [h.spec k, hv] at hx
          cases hx
          rfl
        subst hw
        by_cases hck : k ∈ ck
        · simp [hck]
        · simp only [if_neg hck]
          rcases List.mem_append.mp hk with hp | hp
          · exact h.complete k hp w hv
          · exact absurd hp hck
      | none =>
        cases hi : items.get k with
        | some w =>
          obtain ⟨v', hv', hsp⟩ := h.correct k w hi
          rw [hsp] at hv
          cases hv
          rw [hv']
        | none =>
          exfalso
          rcases List.mem_append.mp hk with hp | hp
          · rw [h.complete k hp v hv] at hi
            cases hi
          · have hnk : ¬ items₁.hasKey k := by
              rw [Rec.hasKey_eq_isSome, hitems₁, hitPass_get, hh, hi]
              simp
            have hmiss : k ∈ missing := by
              rw [hmissing, List.mem_filter]
              exact ⟨hp, by simpa using hnk⟩
            have hkvk : kv.get k = some v := by
              have : readSpec cache kv k = kv.get k := by rw [readSpec, f4 k hmiss]
              rw [h.spec k, hv] at this
              exact this.symm
            exact hres (hmem_results k hmiss v hkvk)

theorem fillMissing_snd_hit (p : Items × Cache) (ks : List String) (k : String)
    (v : KVal) (h : (fillMissing p ks).2.hit k = some v) :
    p.2.hit k = some v := by
  obtain ⟨items, cache⟩ := p
  induction ks generalizing items cache with
  | nil => exact h
  | cons k' rest ih =>
    simp only [fillMissing] at h
    by_cases hhas : items.hasKey k'
    · rw [if_pos hhas] at h
      exact ih _ _ h
    · rw [if_neg hhas] at h
      have := ih _ _ h
      by_cases hk : k = k'
      · subst hk
        rw [Cache.hit_set_none] at this
        cases this
      · rwa [Cache.hit_set_ne _ _ _ _ hk] at this

theorem foldl_readChunk_inv (c₀ : Cache) (kv : Kv) (chunks : List (List String))
    (processed : List String) (items : Items) (cache : Cache)
    (h : RInv c₀ kv processed items cache) :
    RInv c₀ kv (processed ++ chunks.flatten)
      (chunks.foldl (readChunk kv) (items, cache)).1
      (chunks.foldl (readChunk kv) (items, cache)).2 := by
  induction chunks generalizing processed items cache with
  | nil => simpa using h
  | cons ck rest ih =>
    have := ih (processed ++ ck) _ _ (readChunk_inv c₀ kv processed items cache ck h)
    simpa [List.append_assoc] using this

/-- The read path for an arbitrary chunk split covering the key list:
the merged result map records, for every requested key, the
read-through value (truthy cached value, else KV value, else
`undefined`). -/
theorem readPhase_get (c₀ : Cache) (kv : Kv) (chunks : List (List String))
    (keys : List String) (hflat : chunks.flatten = keys) (k : String) :
    (fillMissing (chunks.foldl (readChunk kv) ([], c₀)) keys).1.get k =
      if k ∈ keys then some (readSpec c₀ kv k) else none := by
  have hinv := foldl_readChunk_inv c₀ kv chunks [] [] c₀ (RInv.init c₀ kv)
  rw [List.nil_append, hflat] at hinv
  set p := chunks.foldl (readChunk kv) ([], c₀) with hp
  rw [fillMissing_fst_get]
  by_cases hks : k ∈ keys
  · rw [if_pos hks]
    cases hv : readSpec c₀ kv k with
    | some v =>
      have := hinv.complete k hks v hv
      rw [this]
      simp [this]
    | none =>
      have hnone : p.1.get k = none := by
        cases hg : p.1.get k with
        | none => rfl
        | some w =>
          obtain ⟨v, _, hval⟩ := hinv.correct k w hg
          rw [hval] at hv
          cases hv
      simp [hks, hnone]
  · rw [if_neg hks]
    have hnone : p.1.get k = none := by
      cases hg : p.1.get k with
      | none => rfl
      | some w =>
        exact absurd (hinv.dom k (by simp [hg])) hks
    simp [hks, hnone]

/-- The result map of `doChunkedRead` at every key: `undefined` for keys
not requested, and for requested keys the read-through value —
independently of how the key list was chunked. -/
theorem doChunkedRead_get (s : S) (keys : List String) (k : String) :
    (doChunkedRead s keys).1.get k =
      if k ∈ keys then some (readSpec s.cache s.kv k) else none := by
  simp only [doChunkedRead]
  exact readPhase_get s.cache s.kv (chunksOf keys) keys (chunksOf_flatten keys) k

/-- The same read executed as one unchunked call over all keys. -/
def doSingleRead (s : S) (keys : List String) : Items × S :=
  let p := fillMissing (readChunk s.kv ([], s.cache) keys) keys
  (p.1, { s with cache := p.2 })

theorem doSingleRead_get (s : S) (keys : List String) (k : String) :
    (doSingleRead s keys).1.get k =
      if k ∈ keys then some (readSpec s.cache s.kv k) else none := by
  simp only [doSingleRead]
  exact readPhase_get s.cache s.kv [keys] keys (by simp) k

/-- `doChunkedRead` never touches the KV image. -/
theorem doChunkedRead_kv (s : S) (keys : List String) :
    (doChunkedRead s keys).2.kv = s.kv := rfl

/-- `doChunkedRead` never touches the index snapshot. -/
theorem doChunkedRead_idx (s : S) (keys : List String) :
    (doChunkedRead s keys).2.idx = s.idx := rfl

theorem foldl_readChunk_coherent (kv : Kv) (chunks : List (List String))
    (items : Items) (cache : Cache) (h : Coherent cache kv) :
    Coherent (chunks.foldl (readChunk kv) (items, cache)).2 kv := by
  induction chunks generalizing items cache with
  | nil => exact h
  | cons ck rest ih =>
    apply ih
    simp only [readChunk]
    apply cacheResults_coherent _ _ _ h
    intro p hp
    rw [List.mem_filterMap] at hp
    obtain ⟨j, _, hj⟩ := hp
    cases hkv : kv.get j with
    | none => rw [hkv] at hj; cases hj
    | some v => rw [hkv] at hj; cases hj; exact hkv

/-- A chunked read only writes true KV values (or `undefined`) back into
the cache, so cache coherence is preserved. -/
theorem doChunkedRead_coherent (s : S) (keys : List String)
    (h : Coherent s.cache s.kv) :
    Coherent (doChunkedRead s keys).2.cache (doChunkedRead s keys).2.kv := by
  rw [doChunkedRead_kv]
  simp only [doChunkedRead]
  intro k v hk
  exact foldl_readChunk_coherent s.kv (chunksOf keys) [] s.cache h k v
    (fillMissing_snd_hit _ keys k v hk)

/-! ### Characterisation of the chunked write and delete -/

theorem writeChunk_append (entries : Rec KVal) (s : S) (c₁ c₂ : List String) :
    writeChunk entries (writeChunk entries s c₁) c₂ =
      writeChunk entries s (c₁ ++ c₂) := by
  simp [writeChunk, List.filterMap_append, List.foldl_append]

theorem foldl_writeChunk (entries : Rec KVal) (s : S) (chunks : List (List String)) :
    chunks.foldl (writeChunk entries) s = writeChunk entries s chunks.flatten := by
  induction chunks generalizing s with
  | nil => simp [writeChunk]
  | cons c rest ih => simp [List.foldl_cons, ih, writeChunk_append]

/-- `doChunkedWrite` has exactly the effect of clearing the cache and
then issuing a single unchunked write of all entries, regardless of the
chunk split. -/
theorem doChunkedWrite_eq_single (s : S) (entries : Rec KVal) :
    doChunkedWrite s entries =
      writeChunk entries { s with cache := s.cache.clear } entries.keys := by
  simp only [doChunkedWrite]
  by_cases h : entries.keys.length = 0
  · rw [if_pos h]
    have : entries.keys = [] := List.length_eq_zero.mp h
    simp [this, writeChunk]
  · rw [if_neg h, foldl_writeChunk, chunksOf_flatten]

theorem kv_delMany_append (kv : Kv) (c₁ c₂ : List String) :
    ((kv.delMany c₁).1.delMany c₂).1 = (kv.delMany (c₁ ++ c₂)).1 := by
  rw [Kv.delMany_fst, Kv.delMany_fst, Kv.delMany_fst, List.foldl_append]

/-- `doChunkedDelete` has exactly the effect of clearing the cache and
deleting all keys in one unchunked call, regardless of the chunk
split. -/
theorem doChunkedDelete_eq_single (s : S) (keys : List String) :
    doChunkedDelete s keys =
      { s with cache := s.cache.clear, kv := (s.kv.delMany keys).1 } := by
  simp only [doChunkedDelete]
  by_cases h : keys.length = 0
  · rw [if_pos h]
    have : keys = [] := List.length_eq_zero.mp h
    simp [this, Kv.delMany]
  · rw [if_neg h]
    have hfold : ∀ (chunks : List (List String)) (s' : S),
        (chunks.foldl (fun s ck => { s with kv := (s.kv.delMany ck).1 }) s') =
          { s' with kv := (s'.kv.delMany chunks.flatten).1 } := by
      intro chunks
      induction chunks with
      | nil => intro s'; simp [Kv.delMany]
      | cons c rest ih =>
        intro s'
        simp only [List.foldl_cons, List.flatten_cons, ih]
        simp [kv_delMany_append]
    rw [hfold, chunksOf_flatten]

/-- After `doChunkedWrite` the cache holds exactly the written values,
which are also the current KV values: coherence is re-established. -/
theorem doChunkedWrite_coherent (s : S) (entries : Rec KVal) :
    Coherent (doChunkedWrite s entries).cache (doChunkedWrite s entries).kv := by
  rw [doChunkedWrite_eq_single]
  simp only [writeChunk]
  set ups := entries.keys.filterMap (fun k => (entries.get k).map ((k, ·))) with hups
  clear hups
  induction ups using List.reverseRecOn with
  | nil =>
    intro k v hk
    simp [Cache.clear, Cache.hit, Cache.get, Rec.get] at hk
  | append_singleton rest p ih =>
    intro k v hk
    obtain ⟨k', v'⟩ := p
    simp only [List.foldl_append, List.foldl_cons, List.foldl_nil] at hk ⊢
    by_cases hkk : k = k'
    · subst hkk
      rw [Cache.hit_set_some] at hk
      split at hk
      · cases hk
        exact Kv.get_put_eq _ _ _
      · cases hk
    · rw [Cache.hit_set_ne _ _ _ _ hkk] at hk
      rw [Kv.get_put_ne _ _ _ _ hkk]
      exact ih k v hk

/-- After `doChunkedDelete` the cache is empty: trivially coherent. -/
theorem doChunkedDelete_coherent (s : S) (keys : List String) :
    Coherent (doChunkedDelete s keys).cache (doChunkedDelete s keys).kv := by
  rw [doChunkedDelete_eq_single]
  intro k v hk
  simp [Cache.clear, Cache.hit, Cache.get, Rec.get] at hk

end Batched

/-! ## Errors (`storage-errors.ts`) -/

inductive StorageError where
  | badRequest
  | notFound
  | deleteFailed
  | unknownOperation
  | unexpected
deriving DecidableEq, Repr

/-! ## JS coercions used by the handlers -/

/-- `` `${x}` `` for a possibly-`undefined` string. -/
def jsStr (o : Option String) : String := o.getD "undefined"

/-- JS truthiness of an optional numeric parameter (`first`, `last`):
`0` and `undefined` are falsy. -/
def natTruthy : Option Nat → Bool
  | some n => n ≠ 0
  | none => false

/-- JS truthiness of an optional string parameter (`before`, `after`,
`key`, `index`): `""` and `undefined` are falsy. -/
def strTruthy : Option String → Bool
  | some s => s ≠ ""
  | none => false

/-- Reading a KV value where the code expects a `Set<string>`
(`?? new Set()` for a missing row). -/
def asSet : Option KVal → List String
  | some (.set s) => s
  | _ => []

/-- Reading a KV value where the code expects an entity object. -/
def asObj : Option KVal → Obj
  | some (.obj o) => o
  | _ => []

/-! ## Index engine (`index-handler.ts`) -/

namespace IndexH

/-- `syncIndexes`: snapshot of the declarations, `Map` from storage key
to declaration, loaded by listing the `idx:` prefix. (Non-declaration
values that happen to sit under an `idx:` key are typed as `Index` by
the source; they are skipped here.) -/
def syncIndexes (kv : Kv) : Rec Index :=
  (kv.listPrefix "idx:").filterMap
    (fun p => match p.2 with
      | .idx i => some (p.1, i)
      | _ => none)

/-- `IndexHandler.createIndex`. -/
def createIndex (s : S) (property : String) : S × Except StorageError Index :=
  let key := "idx:" ++ property
  let value : Index := { id := key, property := property }
  let kv := s.kv.put key (.idx value)
  ({ s with kv := kv, idx := syncIndexes kv }, .ok value)

/-- `IndexHandler.updateIndex` (writes at the requested `id`, stamping
the value's `id` from the property). -/
def updateIndex (s : S) (id property : String) : S × Except StorageError Index :=
  let value : Index := { id := "idx:" ++ property, property := property }
  let kv := s.kv.put id (.idx value)
  ({ s with kv := kv, idx := syncIndexes kv }, .ok value)

/-- `IndexHandler.readIndex`. -/
def readIndex (s : S) (id : String) : S × Except StorageError KVal :=
  match s.kv.get id with
  | some v => if v.truthy then (s, .ok v) else (s, .error .notFound)
  | none => (s, .error .notFound)

/-- `IndexHandler.removeIndex`. -/
def removeIndex (s : S) (id : String) : S × Except StorageError Bool :=
  let (kv, deleted) := s.kv.delOne id
  ({ s with kv := kv, idx := syncIndexes kv }, .ok deleted)

/-- `IndexHandler.listIndexes`. -/
def listIndexes (s : S) : S × Except StorageError (Rec KVal) :=
  (s, .ok (s.kv.listPrefix "idx:"))

/-- `keyForIndex`. -/
def keyForIndex (indexName key : String) : String := indexName ++ "--" ++ key

/-- `getApplicableIndexes`: the declared indexes whose property occurs
among the given properties (looked up in the snapshot by `idx:` key). -/
def getApplicableIndexes (idx : Rec Index) (properties : List String) : List Index :=
  properties.filterMap (fun p => idx.get ("idx:" ++ p))

/-- `IndexHandler.enhanceWritePayload`: the primary `(key, value)` row
plus one `(property--value[property], value)` row per applicable
index. -/
def enhanceWritePayload (idx : Rec Index) (key : String) (value : Obj) :
    Rec Obj :=
  let indexes := getApplicableIndexes idx value.keys
  indexes.foldl
    (fun items i => items.set (keyForIndex i.property (jsStr (value.get i.property))) value)
    [(key, value)]

/-- `IndexHandler.getIndexedKeys`. -/
def getIndexedKeys (idx : Rec Index) (value : Obj) : List String :=
  (getApplicableIndexes idx value.keys).map
    (fun i => keyForIndex i.property (jsStr (value.get i.property)))

/-- `IndexHandler.enhanceDeletePayload`: appends, for **every** declared
index, the key `property--entityKey` (the entity key, not the indexed
value). -/
def enhanceDeletePayload (idx : Rec Index) (key : String) (toDelete : List String) :
    List String :=
  toDelete ++ idx.map (fun p => keyForIndex p.2.property key)

/-- `IndexHandler.computeDanglingKeys`. -/
def computeDanglingKeys (idx : Rec Index) (currentValue updatedValue : Obj) :
    List String :=
  (getIndexedKeys idx currentValue).filter
    (fun k => ¬ (getIndexedKeys idx updatedValue).contains k)

end IndexH

/-! ## Relationship engine (`relationship-handler.ts`) -/

namespace RelH

/-- `` id(name, node) = `relationship$${node}$${name}` ``. -/
def relId (name node : String) : String := "relationship$" ++ node ++ "$" ++ name

/-- `` prefix(node) = `relationship$${node}` ``. -/
def relPrefix (node : String) : String := "relationship$" ++ node

/-- `` mappingId(name) = `relationship-name$${name}` ``. -/
def mappingId (name : String) : String := "relationship-name$" ++ name

/-- A page: `{relationships, hasBefore, hasAfter}`. -/
structure Page where
  relationships : List String
  hasBefore : Bool
  hasAfter : Bool
deriving DecidableEq, Repr

/-- `Array.prototype.slice(start, end)` with JS semantics: a negative
index counts from the end of the array, and both indices are clamped to
`[0, length]`. -/
def jsSlice {α : Type} (l : List α) (s e : Int) : List α :=
  let len : Int := l.length
  let s' := if s < 0 then max (len + s) 0 else min s len
  let e' := if e < 0 then max (len + e) 0 else min e len
  (l.drop s'.toNat).take (e' - s').toNat

/-- `findOrThrow`: index of the cursor plus the increment, or
`NotFound`. -/
def findOrThrow (ids : List String) (targetId : String) (increment : Int) :
    Except StorageError Int :=
  match ids.findIdx? (fun r => r = targetId) with
  | none => .error .notFound
  | some idx => .ok ((idx : Int) + increment)

/-- `RelationshipHandler.paginateRelationships`. Parameters are branched
on with JS truthiness (`first`/`last`: `0` is falsy; `before`/`after`:
`""` is falsy); a thrown `NotFound` from the cursor lookup propagates. -/
def paginateRelationships (relationships : List String)
    (first last : Option Nat) (before after : Option String) :
    Except StorageError Page :=
  let ids := relationships
  let length : Int := ids.length
  if natTruthy first ∧ strTruthy before then .error .badRequest
  else if natTruthy last ∧ strTruthy after then .error .badRequest
  else if natTruthy first ∧ natTruthy last then .error .badRequest
  else
    match (if strTruthy after then findOrThrow ids (jsStr after) 1
           else .ok (0 : Int)) with
    | .error e => .error e
    | .ok startAtIdx =>
      match (if strTruthy before then findOrThrow ids (jsStr before) (-1)
             else .ok (length - 1)) with
      | .error e => .error e
      | .ok endAtIdx =>
        let step1 :=
          if natTruthy first then
            let e := startAtIdx + (first.getD 0 : Int) - 1
            (jsSlice ids startAtIdx (e + 1), e)
          else (ids, endAtIdx)
        let step2 :=
          if natTruthy last then
            let st := step1.2 - (last.getD 0 : Int) + 1
            (jsSlice step1.1 st (step1.2 + 1), st)
          else (step1.1, startAtIdx)
        .ok { relationships := step2.1
              hasBefore := step2.2 > 0
              hasAfter := step1.2 < length - 1 }

/-- Claim-side definition (spec vocabulary): the inclusive window start,
`idxOf(after) + 1` when `after` is supplied, else `0`. -/
def startIdx (rels : List String) (after : Option String) : Int :=
  if strTruthy after then (rels.findIdx (fun r => r = jsStr after) : Int) + 1 else 0

/-- Claim-side definition (spec vocabulary): the inclusive window end,
`idxOf(before) - 1` when `before` is supplied, else `length - 1`. -/
def endIdx (rels : List String) (before : Option String) : Int :=
  if strTruthy before then (rels.findIdx (fun r => r = jsStr before) : Int) - 1
  else (rels.length : Int) - 1

/-- Claim-side definition, amended to match the code: with `first`, the
window from the start position trimmed to `first` elements; with `last`,
the `last` elements ending at the end position (meaningful when that
slice start is nonnegative); with neither, the FULL array — the cursors
then affect only `hasBefore`/`hasAfter`, not the returned elements. -/
def amendedPage (rels : List String) (first last : Option Nat)
    (before after : Option String) : Page :=
  let len : Int := rels.length
  let start0 := startIdx rels after
  let end0 := endIdx rels before
  if natTruthy first then
    { relationships := (rels.drop start0.toNat).take (first.getD 0)
      hasBefore := start0 > 0
      hasAfter := start0 + (first.getD 0 : Int) - 1 < len - 1 }
  else if natTruthy last then
    let st := end0 - (last.getD 0 : Int) + 1
    { relationships := (rels.drop st.toNat).take (last.getD 0)
      hasBefore := st > 0
      hasAfter := end0 < len - 1 }
  else
    { relationships := rels, hasBefore := start0 > 0, hasAfter := end0 < len - 1 }

/-- `addRelationship` (inside a transaction): read the set (or a fresh
one), add the neighbor, write the set back. -/
def addRelationship (kv : Kv) (id relatedToId : String) : Kv :=
  kv.put id (.set (setAdd (asSet (kv.get id)) relatedToId))

/-- `deleteRelationship` (inside a transaction): read the set (or a
fresh one), delete the neighbor, write the set back. -/
def deleteRelationship (kv : Kv) (id relatedToId : String) : Kv :=
  kv.put id (.set (setDel (asSet (kv.get id)) relatedToId))

/-- `addRelationshipNameMapping`. -/
def addRelationshipNameMapping (kv : Kv) (aToB bToA : String) : Kv :=
  (kv.put (mappingId aToB) (.str bToA)).put (mappingId bToA) (.str aToB)

/-- `RelationshipHandler.createRelationship` (transactional). -/
def createRelationship (s : S) (nodeA nodeB aToB bToA : String) :
    S × Except StorageError Bool :=
  let nodeAId := relId aToB nodeA
  let nodeBId := relId bToA nodeB
  let kv := addRelationship s.kv nodeAId nodeB
  let kv := addRelationship kv nodeBId nodeA
  let kv := addRelationshipNameMapping kv aToB bToA
  ({ s with kv := kv }, .ok true)

/-- One edge descriptor of a batch request. -/
structure RelReq where
  nodeA : String
  nodeB : String
  aToB : String
  bToA : String
deriving DecidableEq, Repr

/-- `parseBatchRequest`: the `[(relationship$a$aToB, b)]` and
`[(relationship$b$bToA, a)]` tuple lists. -/
def parseBatchRequest (input : List RelReq) :
    List (String × String) × List (String × String) :=
  (input.map (fun r => (relId r.aToB r.nodeA, r.nodeB)),
   input.map (fun r => (relId r.bToA r.nodeB, r.nodeA)))

/-- The in-memory merge loop shared by `addRelationshipBatch` and
`deleteRelationshipBatch`: `update[source] ?? existing.get(source) ??
new Set()`, then add or remove the target. -/
def mergeRelations (existing : Items) (relations : List (String × String))
    (step : List String → String → List String) : Rec (List String) :=
  relations.foldl
    (fun update p =>
      let all :=
        match update.get p.1 with
        | some l => l
        | none => asSet (Rec.get existing p.1).join
      update.set p.1 (step all p.2))
    []

/-- `addRelationshipBatch`: bulk-read the set keys, merge the additions
in memory, bulk-write. -/
def addRelationshipBatch (s : S) (relations : List (String × String)) : S :=
  let (existing, s) := Batched.doChunkedRead s (relations.map Prod.fst)
  let update := mergeRelations existing relations
    (fun all target => if target ∈ all then all else setAdd all target)
  Batched.doChunkedWrite s (update.map (fun p => (p.1, KVal.set p.2)))

/-- `deleteRelationshipBatch`. -/
def deleteRelationshipBatch (s : S) (relations : List (String × String)) : S :=
  let (existing, s) := Batched.doChunkedRead s (relations.map Prod.fst)
  let update := mergeRelations existing relations
    (fun all target => if target ∈ all then setDel all target else all)
  Batched.doChunkedWrite s (update.map (fun p => (p.1, KVal.set p.2)))

/-- `RelationshipHandler.createRelationshipBatch`: `right` then `left`,
sequentially. -/
def createRelationshipBatch (s : S) (input : List RelReq) :
    S × Except StorageError Bool :=
  let (right, left) := parseBatchRequest input
  let s := addRelationshipBatch s right
  let s := addRelationshipBatch s left
  (s, .ok true)

/-- `RelationshipHandler.hasRelationship`: `NotFound` when no set row
exists; otherwise `{exists: set.has(nodeB)}` (an empty set is an
object, hence truthy). -/
def hasRelationship (s : S) (nodeA nodeB name : String) :
    S × Except StorageError Bool :=
  match s.kv.get (relId name nodeA) with
  | none => (s, .error .notFound)
  | some v => (s, .ok ((asSet (some v)).contains nodeB))

/-- `RelationshipHandler.removeRelationship` (transactional dual
delete; KV exceptions are not modelled, so the `catch` branch that
returns `{success:false}` is unreachable here). -/
def removeRelationship (s : S) (nodeA nodeB aToB bToA : String) :
    S × Except StorageError Bool :=
  let nodeAId := relId aToB nodeA
  let nodeBId := relId bToA nodeB
  let kv := deleteRelationship s.kv nodeAId nodeB
  let kv := deleteRelationship kv nodeBId nodeA
  ({ s with kv := kv }, .ok true)

/-- `RelationshipHandler.removeRelationshipBatch`. -/
def removeRelationshipBatch (s : S) (input : List RelReq) :
    S × Except StorageError Bool :=
  let (right, left) := parseBatchRequest input
  let s := deleteRelationshipBatch s right
  let s := deleteRelationshipBatch s left
  (s, .ok true)

/-- The directional-name component of a set key:
`` source.split('$')[2] `` (`undefined` when absent). -/
def nameOfSetKey (source : String) : String :=
  jsStr ((source.splitOn "$").get? 2)

/-- `clearAllRelationshipsForNode`: list the node's set keys, recover
the inverse directional names through the name mapping, plan the mirror
removals, then delete the node's own set rows and apply the mirror
removals (in the order the `Promise.all` array lists them). -/
def clearAllRelationshipsForNode (s : S) (node : String) : S :=
  let relationsRight := s.kv.listPrefix (relPrefix node)
  let relationsRightIds := relationsRight.map Prod.fst
  let relationsLeftIds :=
    relationsRight.foldl
      (fun (acc : List (String × String)) p =>
        (asSet (some p.2)).foldl
          (fun acc target =>
            let relationName := nameOfSetKey p.1
            match s.kv.get (mappingId relationName) with
            | some (.str rev) =>
              if rev ≠ "" then acc ++ [(relId rev target, node)] else acc
            | _ => acc)
          acc)
      []
  let s := { s with kv := (s.kv.delMany relationsRightIds).1 }
  deleteRelationshipBatch s relationsLeftIds

/-- `RelationshipHandler.removeRelationshipNode`. -/
def removeRelationshipNode (s : S) (node : String) :
    S × Except StorageError Bool :=
  (clearAllRelationshipsForNode s node, .ok true)

/-- `RelationshipHandler.removeRelationshipNodeBatch` (the handlers run
over the nodes in order). -/
def removeRelationshipNodeBatch (s : S) (nodes : List String) :
    S × Except StorageError Bool :=
  (nodes.foldl clearAllRelationshipsForNode s, .ok true)

/-- `RelationshipHandler.listRelationship`. -/
def listRelationship (s : S) (name node : String)
    (first last : Option Nat) (before after : Option String) :
    S × Except StorageError Page :=
  let relationships := asSet (s.kv.get (relId name node))
  (s, paginateRelationships relationships first last before after)

/-- One request of a `batchList`. -/
structure ListReq where
  name : String
  node : String
  first : Option Nat := none
  last : Option Nat := none
  before : Option String := none
  after : Option String := none
deriving DecidableEq, Repr

/-- `RelationshipHandler.batchListRelationships`: a single chunked read
gathers every set key; the result map is walked in its insertion order,
paired positionally with the requests; a missing/empty set or a
pagination failure degrades to an empty page. -/
def batchListRelationships (s : S) (requests : List ListReq) :
    S × Except StorageError (List Page) :=
  let (results, s) :=
    Batched.doChunkedRead s (requests.map (fun r => relId r.name r.node))
  let pages :=
    (results.zip requests).map
      (fun (p : (String × Option KVal) × ListReq) =>
        let data := p.1.2
        let req := p.2
        match data with
        | some (.set l) =>
          if l.length = 0 then ⟨[], false, false⟩
          else
            match paginateRelationships l req.first req.last req.before req.after with
            | .ok page => page
            | .error _ => ⟨[], false, false⟩
        | _ => ⟨[], false, false⟩)
  (s, .ok pages)

/-- `RelationshipHandler.purgeRelationships`: list every key starting
with `relationship` and bulk-delete; returns the number of keys. -/
def purgeRelationships (s : S) : S × Except StorageError Nat :=
  let ids := (s.kv.listPrefix "relationship").map Prod.fst
  (Batched.doChunkedDelete s (jsSetOf ids), .ok ids.length)

end RelH

/-! ## Dispatch-level requests and responses -/

/-- The union of handler response shapes. -/
inductive Out where
  | obj (o : Obj)
  | objs (l : List Obj)
  | optVals (l : List (Option KVal))
  | val (v : KVal)
  | success (b : Bool)
  | boolVal (b : Bool)
  | table (m : Rec KVal)
  | page (p : RelH.Page)
  | pages (l : List RelH.Page)
  | count (n : Nat)
  | index (i : Index)
  | name (s : String)

/-- `IndexStorageRequest` operations. -/
inductive IndexOp where
  | create (property : String)
  | update (id property : String)
  | read (id : String)
  | remove (id : String)
  | list
deriving DecidableEq, Repr

/-- `IndexHandler.handle`: note that no branch touches the read
cache. -/
def IndexH.handle (s : S) : IndexOp → S × Except StorageError Out
  | .create property =>
    let (s, r) := IndexH.createIndex s property
    (s, r.map Out.index)
  | .update id property =>
    let (s, r) := IndexH.updateIndex s id property
    (s, r.map Out.index)
  | .read id =>
    let (s, r) := IndexH.readIndex s id
    (s, r.map Out.val)
  | .remove id =>
    let (s, r) := IndexH.removeIndex s id
    (s, r.map Out.success)
  | .list =>
    let (s, r) := IndexH.listIndexes s
    (s, r.map Out.table)

/-- `RelationshipStorageRequest` operations. -/
inductive RelOp where
  | create (nodeA nodeB aToB bToA : String)
  | batchCreate (input : List RelH.RelReq)
  | read (nodeA nodeB name : String)
  | remove (nodeA nodeB aToB bToA : String)
  | batchRemove (input : List RelH.RelReq)
  | removeNode (node : String)
  | batchRemoveNode (nodes : List String)
  | list (name node : String) (first last : Option Nat) (before after : Option String)
  | batchList (requests : List RelH.ListReq)
  | purge
deriving DecidableEq, Repr

/-- `RelationshipHandler.handle`: every mutating branch first calls
`cache.deleteAll()`. -/
def RelH.handle (s : S) : RelOp → S × Except StorageError Out
  | .create a b n1 n2 =>
    let s := { s with cache := s.cache.clear }
    let (s, r) := RelH.createRelationship s a b n1 n2
    (s, r.map Out.success)
  | .batchCreate input =>
    let s := { s with cache := s.cache.clear }
    let (s, r) := RelH.createRelationshipBatch s input
    (s, r.map Out.success)
  | .read a b name =>
    let (s, r) := RelH.hasRelationship s a b name
    (s, r.map Out.boolVal)
  | .remove a b n1 n2 =>
    let s := { s with cache := s.cache.clear }
    let (s, r) := RelH.removeRelationship s a b n1 n2
    (s, r.map Out.success)
  | .batchRemove input =>
    let s := { s with cache := s.cache.clear }
    let (s, r) := RelH.removeRelationshipBatch s input
    (s, r.map Out.success)
  | .removeNode node =>
    let s := { s with cache := s.cache.clear }
    let (s, r) := RelH.removeRelationshipNode s node
    (s, r.map Out.success)
  | .batchRemoveNode nodes =>
    let s := { s with cache := s.cache.clear }
    let (s, r) := RelH.removeRelationshipNodeBatch s nodes
    (s, r.map Out.success)
  | .list name node first last before after =>
    let (s, r) := RelH.listRelationship s name node first last before after
    (s, r.map Out.page)
  | .batchList requests =>
    let (s, r) := RelH.batchListRelationships s requests
    (s, r.map Out.pages)
  | .purge =>
    let s := { s with cache := s.cache.clear }
    let (s, r) := RelH.purgeRelationships s
    (s, r.map Out.count)

/-! ## Entity engine (`query-handler.ts`) -/

/-- A range predicate `{property, min, max}` of a `listQuery` (numeric
comparison of the payload scalar, which is carried here as its string
coercion and re-parsed). -/
structure RangePred where
  property : String
  min : Int
  max : Int
deriving DecidableEq, Repr

namespace QueryH

/-- `keyFromQuery`: `key` alone, `index` alone, or
`` `${index}--${key}` `` (JS truthiness on both). -/
def keyFromQuery (key index : Option String) : String :=
  if strTruthy key ∧ ¬ strTruthy index then jsStr key
  else if strTruthy index ∧ ¬ strTruthy key then jsStr index
  else jsStr index ++ "--" ++ jsStr key

/-- JS `value.id ?? fallback` (`undefined` is nullish, `""` is not). -/
def idOrKey (value : Obj) (key : String) : String :=
  match value.get "id" with
  | some s => s
  | none => key

/-- `QueryHandler.createQuery`: stamp `id`, expand through the index
engine, persist every row in one transaction, return the stamped
value. -/
def createQuery (s : S) (key : String) (value : Obj) :
    S × Except StorageError Obj :=
  let value := value.set "id" (idOrKey value key)
  let items := IndexH.enhanceWritePayload s.idx key value
  let kv := items.foldl (fun kv p => kv.put p.1 (.obj p.2)) s.kv
  ({ s with kv := kv }, .ok value)

/-- `QueryHandler.batchCreateQuery`: expand every input entry, stamp
ids, bulk-write all rows, return only the entries whose storage key is
one of the input keys. -/
def batchCreateQuery (s : S) (entriesIn : Rec Obj) :
    S × Except StorageError (List Obj) :=
  if entriesIn.keys.length = 0 then (s, .error .badRequest)
  else
    let keysFromInput := entriesIn.keys
    let acc :=
      keysFromInput.foldl
        (fun (acc : Rec Obj × Rec Obj) inputKey =>
          let rows := IndexH.enhanceWritePayload s.idx inputKey
            ((entriesIn.get inputKey).getD [])
          rows.foldl
            (fun (acc : Rec Obj × Rec Obj) row =>
              let entry := row.2.set "id" (idOrKey row.2 row.1)
              if keysFromInput.contains row.1 then
                (acc.1.set row.1 entry, acc.2.set row.1 entry)
              else
                (acc.1.set row.1 entry, acc.2))
            acc)
        ([], [])
    let s := Batched.doChunkedWrite s (acc.1.map (fun p => (p.1, KVal.obj p.2)))
    (s, .ok (acc.2.map Prod.snd))

/-- `QueryHandler.readQuery`: serve a truthy cached value, otherwise
read KV, `NotFound` for a falsy result, and write back to the cache. -/
def readQuery (s : S) (key index : Option String) :
    S × Except StorageError KVal :=
  let k := keyFromQuery key index
  match s.cache.hit k with
  | some v => (s, .ok v)
  | none =>
    match s.kv.get k with
    | some v =>
      if v.truthy then ({ s with cache := s.cache.set k (some v) }, .ok v)
      else (s, .error .notFound)
    | none => (s, .error .notFound)

/-- `QueryHandler.batchReadQuery`: resolve every key, chunked read,
answer in input order with `undefined` for misses. -/
def batchReadQuery (s : S) (keysIn : List String) (index : Option String) :
    S × Except StorageError (List (Option KVal)) :=
  let keys := keysIn.map (fun k => keyFromQuery (some k) index)
  let (items, s) := Batched.doChunkedRead s keys
  (s, .ok (keys.map (fun k => (Rec.get items k).join)))

/-- `QueryHandler.updateQuery`: strict merge-update with index fan-out
and dangling-key deletion, in one transaction. -/
def updateQuery (s : S) (key : String) (value : Obj) :
    S × Except StorageError Obj :=
  match s.kv.get key with
  | none => (s, .error .notFound)
  | some cur =>
    if cur.truthy then
      let currentValue := asObj (some cur)
      let updateValue := currentValue.merge value
      let items := IndexH.enhanceWritePayload s.idx key updateValue
      let dangling := IndexH.computeDanglingKeys s.idx currentValue updateValue
      let kv := items.foldl (fun kv p => kv.put p.1 (.obj updateValue)) s.kv
      let kv := dangling.foldl (fun kv k => (kv.delOne k).1) kv
      ({ s with kv := kv }, .ok updateValue)
    else (s, .error .notFound)

/-- The shared engine of `batchUpdateQuery` (strict) and
`batchUpsertQuery`: chunked read of current values, per-key merge and
index expansion, accumulated dangling keys, one chunked write and one
chunked delete. The strict missing-key check compares the result map's
size with the key count. -/
def doBatchUpdate (s : S) (input : Rec Obj) (throwOnMissingKey : Bool) :
    S × Except StorageError (List Obj) :=
  let keys := input.keys
  let read := Batched.doChunkedRead s keys
  let items := read.1
  let s := read.2
  if throwOnMissingKey ∧ items.length ≠ keys.length then
    (s, .error .notFound)
  else
    let acc :=
      keys.foldl
        (fun (acc : Rec Obj × Rec Obj × List String) key =>
          let (entries, fromInput, dangling) := acc
          let currentValue :=
            match (Rec.get items key).join with
            | some v => asObj (some v)
            | none => [("id", key)]
          let updateValue := (input.get key).getD []
          let nextValue := currentValue.merge updateValue
          let itemsToUpdate := IndexH.enhanceWritePayload s.idx key updateValue
          let itemsDangling := IndexH.computeDanglingKeys s.idx currentValue nextValue
          (itemsToUpdate.foldl (fun e p => e.set p.1 nextValue) entries,
           fromInput.set key nextValue,
           itemsDangling.foldl setAdd dangling))
        ([], [], [])
    let s := Batched.doChunkedWrite s (acc.1.map (fun p => (p.1, KVal.obj p.2)))
    let s := Batched.doChunkedDelete s acc.2.2
    (s, .ok (keys.map (fun k => (acc.1.get k).getD [])))

/-- `QueryHandler.batchUpdateQuery` (strict). -/
def batchUpdateQuery (s : S) (entries : Rec Obj) :
    S × Except StorageError (List Obj) :=
  if entries.keys.length = 0 then (s, .error .badRequest)
  else doBatchUpdate s entries true

/-- `QueryHandler.batchUpsertQuery`. -/
def batchUpsertQuery (s : S) (entries : Rec Obj) :
    S × Except StorageError (List Obj) :=
  if entries.keys.length = 0 then (s, .error .badRequest)
  else doBatchUpdate s entries false

/-- `QueryHandler.removeQuery`: delete the primary row together with
every `property--entityKey` index row, `DeleteFailed` when nothing was
deleted, then cascade a `removeNode` through the relationship
handler. -/
def removeQuery (s : S) (key : String) : S × Except StorageError Bool :=
  let keys := IndexH.enhanceDeletePayload s.idx key [key]
  let del := s.kv.delMany keys
  let s := { s with kv := del.1 }
  if del.2 = 0 then (s, .error .deleteFailed)
  else ((RelH.handle s (.removeNode key)).1, .ok true)

/-- `QueryHandler.batchRemoveQuery`: union of the per-entity delete key
sets, one chunked delete, then cascade a `batchRemoveNode`. -/
def batchRemoveQuery (s : S) (keysIn : List String) :
    S × Except StorageError Bool :=
  let keys := keysIn.foldl (fun ks k => IndexH.enhanceDeletePayload s.idx k ks) keysIn
  let s := Batched.doChunkedDelete s (jsSetOf keys)
  ((RelH.handle s (.batchRemoveNode keysIn)).1, .ok true)

/-- The `id` under which a list result row is keyed in the response. -/
def keyOfVal : KVal → String
  | .obj o => jsStr (o.get "id")
  | _ => "undefined"

/-- The listed entries of a prefix in key order (the DO backend
enumerates a `list({prefix})` in lexicographic key order). -/
def sortedPrefix (kv : Kv) (pre : String) : List (String × KVal) :=
  (kv.listPrefix pre).mergeSort (fun a b => a.1 ≤ b.1)

/-- `getQueryItems`: load the full prefix (or the cached full list for
this prefix), re-cache it, and retain the entries satisfying every
range predicate. -/
def getQueryItems (s : S) (pre : String) (query : List RangePred) :
    List (String × KVal) × S :=
  let items :=
    match (Rec.get s.cache pre).join with
    | some (.table m) => m
    | some _ => []
    | none => sortedPrefix s.kv pre
  let s := { s with cache := s.cache.set pre (some (.table items)) }
  let result :=
    items.filter
      (fun p =>
        query.all
          (fun q =>
            match ((asObj (some p.2)).get q.property).bind String.toInt? with
            | some n => q.min ≤ n ∧ n ≤ q.max
            | none => false))
  (result, s)

/-- `getPaginatedItems`: the forbidden-combination guards, then the
underlying prefix list with `startAfter` / `end` / `limit` /
`reverse`. -/
def getPaginatedItems (s : S) (first : Option Nat) (before : Option String)
    (last : Option Nat) (after : Option String) (pre : String) :
    Except StorageError (List (String × KVal)) :=
  if natTruthy first ∧ strTruthy before then .error .badRequest
  else if natTruthy last ∧ strTruthy after then .error .badRequest
  else if natTruthy first ∧ natTruthy last then .error .badRequest
  else
    let sorted := sortedPrefix s.kv pre
    if strTruthy before ∧ strTruthy after then
      .ok (sorted.filter (fun p => jsStr after < p.1 ∧ p.1 < jsStr before))
    else if strTruthy before then
      .ok (((sorted.filter (fun p => p.1 < jsStr before)).reverse).take
        (last.getD 100))
    else if strTruthy after then
      .ok ((sorted.filter (fun p => jsStr after < p.1)).take (first.getD 100))
    else if natTruthy first then
      .ok (sorted.take (first.getD 0))
    else if natTruthy last then
      .ok (sorted.reverse.take (last.getD 0))
    else .ok sorted

/-- `QueryHandler.listQuery`: range-query mode when a nonempty predicate
list is supplied, paginated mode otherwise; an unfiltered, uncursored
full list is cached under the prefix; the result is keyed by each
entry's `id`. -/
def listQuery (s : S) (key index : Option String)
    (first last : Option Nat) (before after : Option String)
    (query : Option (List RangePred)) :
    S × Except StorageError (Rec KVal) :=
  let pre := keyFromQuery key index
  let hasQuery : Bool := match query with | some l => l.length != 0 | none => false
  let step : Except StorageError (List (String × KVal) × S) :=
    if hasQuery then
      .ok (getQueryItems s pre ((query.getD [])))
    else
      (getPaginatedItems s first before last after pre).map (fun l => (l, s))
  match step with
  | .error e => (s, .error e)
  | .ok (items, s) =>
    let s :=
      if query.isNone ∧ ¬ natTruthy first ∧ ¬ natTruthy last ∧
          ¬ strTruthy before ∧ ¬ strTruthy after then
        { s with cache := s.cache.set pre (some (.table items)) }
      else s
    let response := items.foldl (fun r p => Rec.set r (keyOfVal p.2) p.2) []
    (s, .ok response)

/-- `QueryHandler.purgeAllQuery`: `storage.deleteAll()`. -/
def purgeAllQuery (s : S) : S × Except StorageError Bool :=
  ({ s with kv := [] }, .ok true)

end QueryH

/-- `QueryStorageRequest` operations. -/
inductive QueryOp where
  | create (key : String) (value : Obj)
  | batchCreate (entries : Rec Obj)
  | read (key : String) (index : Option String)
  | batchRead (keys : List String) (index : Option String)
  | update (key : String) (value : Obj)
  | batchUpdate (entries : Rec Obj)
  | batchUpsert (entries : Rec Obj)
  | remove (key : String)
  | batchRemove (keys : List String)
  | list (key index : Option String) (first last : Option Nat)
      (before after : Option String) (query : Option (List RangePred))
  | purge
deriving DecidableEq, Repr

/-- `QueryHandler.handle`: every mutating branch first calls
`cache.deleteAll()`. -/
def QueryH.handle (s : S) : QueryOp → S × Except StorageError Out
  | .create key value =>
    let s := { s with cache := s.cache.clear }
    let (s, r) := QueryH.createQuery s key value
    (s, r.map Out.obj)
  | .batchCreate entries =>
    let s := { s with cache := s.cache.clear }
    let (s, r) := QueryH.batchCreateQuery s entries
    (s, r.map Out.objs)
  | .read key index =>
    let (s, r) := QueryH.readQuery s (some key) index
    (s, r.map Out.val)
  | .batchRead keys index =>
    let (s, r) := QueryH.batchReadQuery s keys index
    (s, r.map Out.optVals)
  | .update key value =>
    let s := { s with cache := s.cache.clear }
    let (s, r) := QueryH.updateQuery s key value
    (s, r.map Out.obj)
  | .batchUpdate entries =>
    let s := { s with cache := s.cache.clear }
    let (s, r) := QueryH.batchUpdateQuery s entries
    (s, r.map Out.objs)
  | .batchUpsert entries =>
    let s := { s with cache := s.cache.clear }
    let (s, r) := QueryH.batchUpsertQuery s entries
    (s, r.map Out.objs)
  | .remove key =>
    let s := { s with cache := s.cache.clear }
    let (s, r) := QueryH.removeQuery s key
    (s, r.map Out.success)
  | .batchRemove keys =>
    let s := { s with cache := s.cache.clear }
    let (s, r) := QueryH.batchRemoveQuery s keys
    (s, r.map Out.success)
  | .list key index first last before after query =>
    let (s, r) := QueryH.listQuery s key index first last before after query
    (s, r.map Out.table)
  | .purge =>
    let s := { s with cache := s.cache.clear }
    let (s, r) := QueryH.purgeAllQuery s
    (s, r.map Out.boolVal)

/-! ## Top-level dispatch (`storage.ts`) -/

/-- A dispatch envelope routed to the query, index or relationship
handler. -/
inductive Req where
  | query (op : QueryOp)
  | index (op : IndexOp)
  | rel (op : RelOp)

/-- `Storage.fetch` routing. -/
def Storage.handle (s : S) : Req → S × Except StorageError Out
  | .query op => QueryH.handle s op
  | .index op => IndexH.handle s op
  | .rel op => RelH.handle s op

/-- The mutating operations of the entity engine. -/
def QueryOp.isMutating : QueryOp → Bool
  | .create _ _ => true
  | .batchCreate _ => true
  | .update _ _ => true
  | .batchUpdate _ => true
  | .batchUpsert _ => true
  | .remove _ => true
  | .batchRemove _ => true
  | .purge => true
  | _ => false

/-- The mutating operations of the relationship engine. -/
def RelOp.isMutating : RelOp → Bool
  | .create _ _ _ _ => true
  | .batchCreate _ => true
  | .remove _ _ _ _ => true
  | .batchRemove _ => true
  | .removeNode _ => true
  | .batchRemoveNode _ => true
  | .purge => true
  | _ => false

/-- The mutating operations of the index engine. -/
def IndexOp.isMutating : IndexOp → Bool
  | .create _ => true
  | .update _ _ => true
  | .remove _ => true
  | _ => false

/-- A mutating request. -/
def Req.isMutating : Req → Bool
  | .query op => op.isMutating
  | .index op => op.isMutating
  | .rel op => op.isMutating

/-! ## Backup / restore (`store-handler.ts`) -/

/-- The store handler's world: the partition state plus the backup blob
store (blobs carry the parsed JSON image). -/
structure FullS where
  s : S
  blobs : Rec Kv

namespace StoreH

/-- The blob name `` `${id}/graph-store-${time}${suffix}.json` ``. -/
def backupName (pid : String) (time : Nat) (reason : Option String) : String :=
  pid ++ "/graph-store-" ++ toString time ++
    (match reason with | some r => "-" ++ r | none => "") ++ ".json"

/-- `StoreHandler.backup`: serialize the full KV image into a blob,
return the blob name. -/
def backup (fs : FullS) (pid : String) (time : Nat) (reason : Option String) :
    FullS × Except StorageError String :=
  let name := backupName pid time reason
  ({ fs with blobs := fs.blobs.set name fs.s.kv }, .ok name)

/-- `StoreHandler.restore`: fetch the blob, `NotFound` when missing,
take a `before-restore` safety backup, purge the KV namespace, and
re-insert the parsed mapping via Chunked KV; returns the number of keys
of the blob. -/
def restore (fs : FullS) (pid : String) (time : Nat) (backupId : String) :
    FullS × Except StorageError Nat :=
  match fs.blobs.get backupId with
  | none => (fs, .error .notFound)
  | some body =>
    let (fs, _) := backup fs pid time (some "before-restore")
    let s := { fs.s with kv := [] }
    let s := Batched.doChunkedWrite s body
    ({ fs with s := s }, .ok body.keys.length)

end StoreH

/-- Under a coherent cache, the read-through value of a key is exactly
its KV value. -/
theorem readSpec_coherent (c : Cache) (kv : Kv) (h : Coherent c kv) (k : String) :
    readSpec c kv k = kv.get k := by
  unfold readSpec
  cases hh : c.hit k with
  | some v => exact (h k v hh).symm
  | none => rfl

/-! ### Coherence of the mutating operations -/

theorem deleteRelationshipBatch_coherent (s : S) (rel : List (String × String)) :
    Coherent (RelH.deleteRelationshipBatch s rel).cache
      (RelH.deleteRelationshipBatch s rel).kv := by
  unfold RelH.deleteRelationshipBatch
  exact Batched.doChunkedWrite_coherent _ _

theorem addRelationshipBatch_coherent (s : S) (rel : List (String × String)) :
    Coherent (RelH.addRelationshipBatch s rel).cache
      (RelH.addRelationshipBatch s rel).kv := by
  unfold RelH.addRelationshipBatch
  exact Batched.doChunkedWrite_coherent _ _

theorem clearAllRelationshipsForNode_coherent (s : S) (node : String) :
    Coherent (RelH.clearAllRelationshipsForNode s node).cache
      (RelH.clearAllRelationshipsForNode s node).kv := by
  unfold RelH.clearAllRelationshipsForNode
  exact deleteRelationshipBatch_coherent _ _

theorem foldClear_coherent (nodes : List String) (s : S)
    (h : Coherent s.cache s.kv) :
    Coherent ((nodes.foldl RelH.clearAllRelationshipsForNode s).cache)
      ((nodes.foldl RelH.clearAllRelationshipsForNode s).kv) := by
  induction nodes generalizing s with
  | nil => exact h
  | cons n rest ih =>
    exact ih _ (clearAllRelationshipsForNode_coherent s n)

theorem relHandle_coherent (op : RelOp) (s : S) (hm : op.isMutating = true) :
    Coherent (RelH.handle s op).1.cache (RelH.handle s op).1.kv := by
  cases op with
  | create a b n1 n2 => exact coherent_empty _
  | batchCreate input => exact addRelationshipBatch_coherent _ _
  | read a b name => simp [RelOp.isMutating] at hm
  | remove a b n1 n2 => exact coherent_empty _
  | batchRemove input => exact deleteRelationshipBatch_coherent _ _
  | removeNode node => exact clearAllRelationshipsForNode_coherent _ _
  | batchRemoveNode nodes => exact foldClear_coherent nodes _ (coherent_empty _)
  | list name node first last before after => simp [RelOp.isMutating] at hm
  | batchList requests => simp [RelOp.isMutating] at hm
  | purge => exact Batched.doChunkedDelete_coherent _ _

theorem doBatchUpdate_coherent (s : S) (input : Rec Obj) (strict : Bool)
    (hc : s.cache = []) :
    Coherent (QueryH.doBatchUpdate s input strict).1.cache
      (QueryH.doBatchUpdate s input strict).1.kv := by
  simp only [QueryH.doBatchUpdate]
  split
  · exact Batched.doChunkedRead_coherent s input.keys
      (by rw [hc]; exact coherent_empty _)
  · exact Batched.doChunkedDelete_coherent _ _

theorem queryHandle_coherent (op : QueryOp) (s : S) (hm : op.isMutating = true) :
    Coherent (QueryH.handle s op).1.cache (QueryH.handle s op).1.kv := by
  cases op with
  | create key value =>
    show Coherent (QueryH.createQuery _ key value).1.cache
      (QueryH.createQuery _ key value).1.kv
    exact coherent_empty _
  | batchCreate entries =>
    show Coherent (QueryH.batchCreateQuery _ entries).1.cache
      (QueryH.batchCreateQuery _ entries).1.kv
    unfold QueryH.batchCreateQuery
    split
    · exact coherent_empty _
    · exact Batched.doChunkedWrite_coherent _ _
  | read key index => simp [QueryOp.isMutating] at hm
  | batchRead keys index => simp [QueryOp.isMutating] at hm
  | update key value =>
    show Coherent (QueryH.updateQuery _ key value).1.cache
      (QueryH.updateQuery _ key value).1.kv
    unfold QueryH.updateQuery
    cases ({ s with cache := s.cache.clear } : S).kv.get key with
    | none => exact coherent_empty _
    | some cur =>
      by_cases ht : cur.truthy <;> simp only [ht, if_true, if_false] <;>
        exact coherent_empty _
  | batchUpdate entries =>
    show Coherent (QueryH.batchUpdateQuery _ entries).1.cache
      (QueryH.batchUpdateQuery _ entries).1.kv
    unfold QueryH.batchUpdateQuery
    split
    · exact coherent_empty _
    · exact doBatchUpdate_coherent _ entries true rfl
  | batchUpsert entries =>
    show Coherent (QueryH.batchUpsertQuery _ entries).1.cache
      (QueryH.batchUpsertQuery _ entries).1.kv
    unfold QueryH.batchUpsertQuery
    split
    · exact coherent_empty _
    · exact doBatchUpdate_coherent _ entries false rfl
  | remove key =>
    show Coherent (QueryH.removeQuery _ key).1.cache (QueryH.removeQuery _ key).1.kv
    simp only [QueryH.removeQuery]
    split
    · exact coherent_empty _
    · exact relHandle_coherent (.removeNode key) _ rfl
  | batchRemove keys =>
    show Coherent (QueryH.batchRemoveQuery _ keys).1.cache
      (QueryH.batchRemoveQuery _ keys).1.kv
    exact relHandle_coherent (.batchRemoveNode keys) _ rfl
  | list key index first last before after query => simp [QueryOp.isMutating] at hm
  | purge => exact coherent_empty _

/-! ### Key-membership helpers for the write fan-out -/

theorem mem_keys_foldl_set {α β : Type} (l : List β) (f : β → String)
    (g : Rec α → β → α) (r : Rec α) :
    (∀ k, k ∈ r.keys → k ∈ (l.foldl (fun acc x => acc.set (f x) (g acc x)) r).keys) ∧
    (∀ x ∈ l, f x ∈ (l.foldl (fun acc x => acc.set (f x) (g acc x)) r).keys) := by
  induction l generalizing r with
  | nil => exact ⟨fun k h => h, by simp⟩
  | cons x rest ih =>
    constructor
    · intro k hk
      exact (ih _).1 k ((Rec.mem_keys_set _ _ _ _).mpr (Or.inr hk))
    · intro y hy
      rcases List.mem_cons.mp hy with hy | hy
      · subst hy
        exact (ih _).1 (f y) ((Rec.mem_keys_set _ _ _ _).mpr (Or.inl rfl))
      · exact (ih _).2 y hy

theorem forall_snd_foldl_set {α β : Type} (l : List β) (f : β → String) (v : α)
    (r : Rec α) (hr : ∀ p ∈ r, p.2 = v) :
    ∀ p ∈ l.foldl (fun acc x => acc.set (f x) v) r, p.2 = v := by
  have hset : ∀ (r : Rec α) (k : String), (∀ p ∈ r, p.2 = v) →
      ∀ p ∈ Rec.set r k v, p.2 = v := by
    intro r k hr
    induction r with
    | nil => simp [Rec.set]
    | cons hd tl ih =>
      obtain ⟨k₀, v₀⟩ := hd
      by_cases h : k₀ = k
      · subst h
        simp only [Rec.set, if_true]
        intro p hp
        rcases List.mem_cons.mp hp with hp | hp
        · subst hp; rfl
        · exact hr p (List.mem_cons_of_mem _ hp)
      · simp only [Rec.set, if_neg h]
        intro p hp
        rcases List.mem_cons.mp hp with hp | hp
        · subst hp; exact hr (k₀, v₀) (List.mem_cons_self _ _)
        · exact ih (fun q hq => hr q (List.mem_cons_of_mem _ hq)) p hp
  induction l generalizing r with
  | nil => exact hr
  | cons x rest ih => exact ih _ (hset r (f x) hr)

theorem doChunkedWrite_get_isSome (s : S) (entries : Rec KVal) (k : String)
    (hk : k ∈ entries.keys) :
    ((Batched.doChunkedWrite s entries).kv.get k).isSome := by
  rw [Batched.doChunkedWrite_eq_single]
  simp only [Batched.writeChunk]
  rw [Kv.get_foldl_put_isSome]
  left
  have hs : (entries.get k).isSome := (Rec.get_isSome_iff_mem_keys entries k).mpr hk
  obtain ⟨v, hv⟩ := Option.isSome_iff_exists.mp hs
  exact List.mem_map.mpr
    ⟨(k, v), List.mem_filterMap.mpr ⟨k, hk, by rw [hv]; rfl⟩, rfl⟩

theorem not_mem_setDel (l : List String) (x : String) : x ∉ setDel l x := by
  simp [setDel]

theorem contains_eq_false_of_not_mem (l : List String) (x : String)
    (h : x ∉ l) : l.contains x = false := by
  simp [List.contains, List.elem_eq_mem, h]

/-! ### Pagination window lemmas -/

theorem findIdxQ_eq_findIdx {α : Type} (p : α → Bool) (l : List α)
    (h : ∃ x ∈ l, p x) : l.findIdx? p = some (l.findIdx p) := by
  induction l with
  | nil => simp at h
  | cons hd tl ih =>
    by_cases hp : p hd
    · simp [List.findIdx?_cons, List.findIdx_cons, hp]
    · have h' : ∃ x ∈ tl, p x := by
        obtain ⟨x, hx, hpx⟩ := h
        rcases List.mem_cons.mp hx with rfl | hx'
        · exact absurd hpx hp
        · exact ⟨x, hx', hpx⟩
      simp [List.findIdx?_cons, List.findIdx_cons, hp, ih h']

theorem findIdxQ_eq_none {α : Type} (p : α → Bool) (l : List α)
    (h : ∀ x ∈ l, ¬ p x) : l.findIdx? p = none := by
  induction l with
  | nil => rfl
  | cons hd tl ih =>
    have hp : ¬ p hd := h hd (List.mem_cons_self hd tl)
    simp [List.findIdx?_cons, hp, ih (fun x hx => h x (List.mem_cons_of_mem hd hx))]

/-- A `slice(s, s + f)` with nonnegative in-range `s` and nonnegative `f`
is drop-then-take. -/
theorem jsSlice_nonneg_take {α : Type} (l : List α) (s f : Int)
    (hs0 : 0 ≤ s) (hsl : s ≤ (l.length : Int)) (hf : 0 ≤ f) :
    RelH.jsSlice l s (s + f) = (l.drop s.toNat).take f.toNat := by
  simp only [RelH.jsSlice]
  rw [if_neg (by omega), if_neg (by omega)]
  have h1 : min s (l.length : Int) = s := min_eq_left hsl
  rw [h1]
  rw [List.take_eq_take]
  simp only [List.length_drop]
  omega

theorem startIdx_bounds (rels : List String) (after : Option String)
    (hafter : strTruthy after → jsStr after ∈ rels) :
    0 ≤ RelH.startIdx rels after ∧ RelH.startIdx rels after ≤ (rels.length : Int) := by
  unfold RelH.startIdx
  by_cases ha : strTruthy after
  · rw [if_pos ha]
    have hlt : rels.findIdx (fun r => r = jsStr after) < rels.length :=
      List.findIdx_lt_length_of_exists ⟨jsStr after, hafter ha, by simp⟩
    omega
  · rw [if_neg ha]
    refine ⟨le_refl 0, ?_⟩
    exact_mod_cast Nat.zero_le _

theorem endIdx_le (rels : List String) (before : Option String) :
    RelH.endIdx rels before ≤ (rels.length : Int) - 1 := by
  unfold RelH.endIdx
  by_cases hb : strTruthy before
  · rw [if_pos hb]
    have hle : rels.findIdx (fun r => r = jsStr before) ≤ rels.length :=
      List.findIdx_le_length _
    omega
  · rw [if_neg hb]

/-- The corrected characterization of `paginateRelationships` on present
cursors (and a fitting `last`). -/
theorem paginate_window (rels : List String) (first last : Option Nat)
    (before after : Option String)
    (hfb : ¬(natTruthy first ∧ strTruthy before))
    (hla : ¬(natTruthy last ∧ strTruthy after))
    (hfl : ¬(natTruthy first ∧ natTruthy last))
    (hafter : strTruthy after → jsStr after ∈ rels)
    (hbefore : strTruthy before → jsStr before ∈ rels)
    (hlast : natTruthy last →
      0 ≤ RelH.endIdx rels before - (last.getD 0 : Int) + 1) :
    RelH.paginateRelationships rels first last before after
      = .ok (RelH.amendedPage rels first last before after) := by
  have hstart : (if strTruthy after then RelH.findOrThrow rels (jsStr after) 1
      else .ok (0 : Int)) = .ok (RelH.startIdx rels after) := by
    unfold RelH.startIdx
    by_cases ha : strTruthy after
    · rw [if_pos ha, if_pos ha]
      unfold RelH.findOrThrow
      rw [findIdxQ_eq_findIdx _ _ ⟨jsStr after, hafter ha, by simp⟩]
    · rw [if_neg ha, if_neg ha]
  have hend : (if strTruthy before then RelH.findOrThrow rels (jsStr before) (-1)
      else .ok ((rels.length : Int) - 1)) = .ok (RelH.endIdx rels before) := by
    unfold RelH.endIdx
    by_cases hb : strTruthy before
    · rw [if_pos hb, if_pos hb]
      unfold RelH.findOrThrow
      rw [findIdxQ_eq_findIdx _ _ ⟨jsStr before, hbefore hb, by simp⟩]
      simp only [RelH.findOrThrow]
      congr 1
    · rw [if_neg hb, if_neg hb]
  unfold RelH.paginateRelationships
  rw [if_neg hfb, if_neg hla, if_neg hfl, hstart, hend]
  obtain ⟨hs0, hsl⟩ := startIdx_bounds rels after hafter
  have hel := endIdx_le rels before
  dsimp only
  by_cases hf : natTruthy first
  · have hl : ¬ natTruthy last := fun hl => hfl ⟨hf, hl⟩
    rw [if_pos hf, if_neg hl]
    unfold RelH.amendedPage
    rw [if_pos hf]
    dsimp only
    have he1 : RelH.startIdx rels after + (first.getD 0 : Int) - 1 + 1
        = RelH.startIdx rels after + (first.getD 0 : Int) := by ring
    rw [he1, jsSlice_nonneg_take rels _ _ hs0 hsl (by positivity)]
    simp
  · rw [if_neg hf]
    by_cases hl : natTruthy last
    · rw [if_pos hl]
      unfold RelH.amendedPage
      rw [if_neg hf, if_pos hl]
      dsimp only
      have he2 : RelH.endIdx rels before + 1
          = (RelH.endIdx rels before - (last.getD 0 : Int) + 1)
            + (last.getD 0 : Int) := by
        ring
      rw [he2, jsSlice_nonneg_take rels _ _ (hlast hl) (by omega) (by positivity)]
      simp
    · rw [if_neg hl]
      unfold RelH.amendedPage
      rw [if_neg hf, if_neg hl]

/-- A truthy `after` absent from the set propagates the cursor lookup's
`NotFound`. -/
theorem paginate_notFound_after (rels : List String) (first last : Option Nat)
    (before after : Option String)
    (hfb : ¬(natTruthy first ∧ strTruthy before))
    (hla : ¬(natTruthy last ∧ strTruthy after))
    (hfl : ¬(natTruthy first ∧ natTruthy last))
    (ha : strTruthy after) (hmiss : jsStr after ∉ rels) :
    RelH.paginateRelationships rels first last before after = .error .notFound := by
  unfold RelH.paginateRelationships
  rw [if_neg hfb, if_neg hla, if_neg hfl, if_pos ha]
  unfold RelH.findOrThrow
  rw [findIdxQ_eq_none _ _ (fun x hx hpx => hmiss (by
    have hxe : x = jsStr after := by simpa using hpx
    exact hxe ▸ hx))]

/-- A truthy `before` absent from the set propagates the cursor lookup's
`NotFound` (once the `after` lookup has succeeded). -/
theorem paginate_notFound_before (rels : List String) (first last : Option Nat)
    (before after : Option String)
    (hfb : ¬(natTruthy first ∧ strTruthy before))
    (hla : ¬(natTruthy last ∧ strTruthy after))
    (hfl : ¬(natTruthy first ∧ natTruthy last))
    (hb : strTruthy before) (hmiss : jsStr before ∉ rels)
    (hafter : strTruthy after → jsStr after ∈ rels) :
    RelH.paginateRelationships rels first last before after = .error .notFound := by
  have hstart : (if strTruthy after then RelH.findOrThrow rels (jsStr after) 1
      else .ok (0 : Int)) = .ok (RelH.startIdx rels after) := by
    unfold RelH.startIdx
    by_cases ha : strTruthy after
    · rw [if_pos ha, if_pos ha]
      unfold RelH.findOrThrow
      rw [findIdxQ_eq_findIdx _ _ ⟨jsStr after, hafter ha, by simp⟩]
    · rw [if_neg ha, if_neg ha]
  unfold RelH.paginateRelationships
  rw [if_neg hfb, if_neg hla, if_neg hfl, hstart]
  dsimp only
  rw [if_pos hb]
  unfold RelH.findOrThrow
  rw [findIdxQ_eq_none _ _ (fun x hx hpx => hmiss (by
    have hxe : x = jsStr before := by simpa using hpx
    exact hxe ▸ hx))]

/-! ## Claims -/

/-- A 129-key input for the chunking boundary. -/
def keys129 : List String := (List.range 129).map (fun i => "k" ++ toString i)

/-- A 128-key input for the chunking boundary. -/
def keys128 : List String := keys129.take 128

set_option maxRecDepth 4000

/-- C7: the chunked KV operations have exactly the effect of a single
unchunked call over all keys: a chunked read yields the same
key-to-value mapping (missing key ⇒ `undefined`) as the single-call
read and leaves the KV image unchanged; a chunked write and a chunked
delete produce the same state as writing (resp. deleting) everything in
one call; key lists are split into chunks of at most 128 keys covering
the input; and inputs of exactly 128 and of 129 keys both complete,
falling into one and two chunks respectively. -/
theorem C7_chunked_equals_unchunked :
    (∀ (s : S) (keys : List String) (k : String),
      (Batched.doChunkedRead s keys).1.get k = (Batched.doSingleRead s keys).1.get k ∧
      (Batched.doChunkedRead s keys).2.kv = s.kv) ∧
    (∀ (s : S) (entries : Rec KVal),
      Batched.doChunkedWrite s entries =
        Batched.writeChunk entries { s with cache := s.cache.clear } entries.keys) ∧
    (∀ (s : S) (keys : List String),
      Batched.doChunkedDelete s keys =
        { s with cache := s.cache.clear, kv := (s.kv.delMany keys).1 }) ∧
    (∀ keys : List String,
      (chunksOf keys).flatten = keys ∧ ∀ c ∈ chunksOf keys, c.length ≤ 128) ∧
    ((chunksOf keys128).length = 1 ∧ (chunksOf keys129).length = 2) := by
  refine ⟨?_, Batched.doChunkedWrite_eq_single, Batched.doChunkedDelete_eq_single,
    ?_, ?_, ?_⟩
  · intro s keys k
    refine ⟨?_, rfl⟩
    rw [Batched.doChunkedRead_get, Batched.doSingleRead_get]
  · intro keys
    refine ⟨chunksOf_flatten keys, ?_⟩
    unfold chunksOf
    split
    · exact chunk128_le keys
    · next h =>
      intro c hc
      rcases List.mem_cons.mp hc with hc | hc
      · subst hc; omega
      · simp at hc
  · decide
  · decide

/-- A mutating request of the entity or relationship engine (excluding
the index engine, whose mutations do not invalidate the cache). -/
def Req.isEngineMutation : Req → Bool
  | .query op => op.isMutating
  | .rel op => op.isMutating
  | .index _ => false

/-- C1 counterexample: on a store whose KV holds an entity under the
key `idx:a`, a read caches it; `createIndex({property:"a"})` then
overwrites that KV row **without invalidating the cache** (no
`IndexHandler` branch touches the cache), after which a read is served
from the cache and returns a value that differs from the current KV
value for its key — refuting the claim for the index mutations. -/
theorem C1_counterexample :
    -- after the read, the cache holds the entity; the index create
    -- leaves the cache untouched while overwriting the KV row
    ((Storage.handle
        ((Storage.handle (⟨[("idx:a", .obj [("id","idx:a"),("x","old")])], [], []⟩ : S)
            (.query (.read "idx:a" none))).1)
        (.index (.create "a"))).1.cache
      = [("idx:a", some (.obj [("id","idx:a"),("x","old")]))]) ∧
    ((Storage.handle
        ((Storage.handle (⟨[("idx:a", .obj [("id","idx:a"),("x","old")])], [], []⟩ : S)
            (.query (.read "idx:a" none))).1)
        (.index (.create "a"))).1.kv.get "idx:a"
      = some (.idx ⟨"idx:a", "a"⟩)) ∧
    ((Storage.handle
        ((Storage.handle
            ((Storage.handle (⟨[("idx:a", .obj [("id","idx:a"),("x","old")])], [], []⟩ : S)
                (.query (.read "idx:a" none))).1)
            (.index (.create "a"))).1)
        (.query (.read "idx:a" none))).2
      = .ok (.val (.obj [("id","idx:a"),("x","old")]))) ∧
    KVal.obj [("id","idx:a"),("x","old")] ≠ KVal.idx ⟨"idx:a", "a"⟩ :=
  ⟨rfl, rfl, rfl, fun h => KVal.noConfusion h⟩

/-- C1 (amended): for every mutating operation of the **entity** and
**relationship** engines (entity create / update / batchUpdate /
batchUpsert / remove / batchRemove / purge, and relationship create /
batchCreate / remove / batchRemove / removeNode / batchRemoveNode /
purge), the in-memory read cache is fully invalidated before any KV
access of the operation — so the operation's outcome is independent of
the prior cache contents — and the cache the operation leaves behind is
coherent with the resulting KV image, so no read served from it can
return a value that differs from the current KV value for its key. The
index engine's create/update/remove issue their KV writes without
touching the cache. -/
theorem C1_mutations_invalidate_cache (r : Req) (s : S)
    (h : r.isEngineMutation = true) :
    Storage.handle s r = Storage.handle { s with cache := [] } r ∧
    Coherent (Storage.handle s r).1.cache (Storage.handle s r).1.kv := by
  cases r with
  | index op => simp [Req.isEngineMutation] at h
  | query op =>
    refine ⟨?_, queryHandle_coherent op _ h⟩
    cases op <;> first | rfl | simp [Req.isEngineMutation, QueryOp.isMutating] at h
  | rel op =>
    refine ⟨?_, relHandle_coherent op _ h⟩
    cases op <;> first | rfl | simp [Req.isEngineMutation, RelOp.isMutating] at h

/-- C1 witness: a concrete mutating operation run from a nonempty
cache. -/
theorem C1_mutations_invalidate_cache_witness :
    (Req.query (.create "e" [("a","1")])).isEngineMutation = true ∧
    Storage.handle ⟨[], [("stale", some (.str "v"))], []⟩
        (.query (.create "e" [("a","1")]))
      = Storage.handle ⟨[], [], []⟩ (.query (.create "e" [("a","1")])) :=
  ⟨rfl,
    (C1_mutations_invalidate_cache (.query (.create "e" [("a","1")]))
      ⟨[], [("stale", some (.str "v"))], []⟩ rfl).1⟩

/-- C9: `batchRead` answers with one element per input key, in input
order, the element being the KV value stored under the i-th resolved
key or `undefined` when absent (no error for misses). Stated for any
cache that is coherent with the KV image (reads are served through the
cache). -/
theorem C9_batchRead_ordered (s : S) (keysIn : List String)
    (index : Option String) (h : Coherent s.cache s.kv) :
    (QueryH.batchReadQuery s keysIn index).2 =
      .ok (keysIn.map (fun k => s.kv.get (QueryH.keyFromQuery (some k) index))) ∧
    (keysIn.map (fun k => s.kv.get (QueryH.keyFromQuery (some k) index))).length
      = keysIn.length := by
  refine ⟨?_, by simp⟩
  simp only [QueryH.batchReadQuery]
  congr 1
  rw [List.map_map]
  apply List.map_congr_left
  intro k hk
  have hmem : QueryH.keyFromQuery (some k) index ∈
      keysIn.map (fun k => QueryH.keyFromQuery (some k) index) :=
    List.mem_map.mpr ⟨k, hk, rfl⟩
  simp only [Function.comp]
  rw [Batched.doChunkedRead_get, if_pos hmem]
  simpa using readSpec_coherent s.cache s.kv h _

/-- C9 witness at a concrete store and key list. -/
theorem C9_batchRead_ordered_witness :
    (QueryH.batchReadQuery ⟨[("k1", .obj [("a","1")])], [], []⟩ ["k1", "k2"] none).2
      = .ok [some (.obj [("a","1")]), none] := by
  have h := C9_batchRead_ordered ⟨[("k1", .obj [("a","1")])], [], []⟩ ["k1", "k2"]
    none (coherent_empty _)
  rw [h.1]
  rfl

/-- C3: the strict batch update on a store where the input key is
missing does **not** abort with `NotFound`: `doChunkedRead` fills
`undefined` for misses, so the `items.size !== keys.length` check never
fires; the operation fabricates `{id: key}` as the current value,
returns success, and writes the merged record to KV. -/
theorem C3_batchUpdate_missing_not_notFound :
    (Storage.handle ⟨[], [], []⟩
        (.query (.batchUpdate [("missing-key", [("x","1")])]))).2
      = .ok (.objs [[("id","missing-key"),("x","1")]]) ∧
    (Storage.handle ⟨[], [], []⟩
        (.query (.batchUpdate [("missing-key", [("x","1")])]))).1.kv.get "missing-key"
      = some (.obj [("id","missing-key"),("x","1")]) ∧
    (Storage.handle ⟨[], [], []⟩
        (.query (.batchUpdate [("missing-key", [("x","1")])]))).2
      ≠ .error .notFound := by
  refine ⟨rfl, rfl, ?_⟩
  intro h
  rw [show (Storage.handle ⟨[], [], []⟩
      (.query (.batchUpdate [("missing-key", [("x","1")])]))).2
    = .ok (.objs [[("id","missing-key"),("x","1")]]) from rfl] at h
  cases h

/-- C2: after declaring an index on `a` and creating `{a: 1}` under key
`entity-a` (which persists the index row `a--1`), `removeQuery` deletes
only `entity-a` and `a--entity-a`; the index row `a--1` survives with
the removed entity as its value, contradicting the claimed invariant
(the deletion path derives index keys from the entity key instead of
the entity's property values). -/
theorem C2_remove_leaves_index_row :
    (Storage.handle
        ((Storage.handle
            ((Storage.handle (⟨[], [], []⟩ : S) (.index (.create "a"))).1)
            (.query (.create "entity-a" [("a","1")]))).1)
        (.query (.remove "entity-a"))).2 = .ok (.success true) ∧
    (Storage.handle
        ((Storage.handle
            ((Storage.handle (⟨[], [], []⟩ : S) (.index (.create "a"))).1)
            (.query (.create "entity-a" [("a","1")]))).1)
        (.query (.remove "entity-a"))).1.kv.get "a--1"
      = some (.obj [("a","1"),("id","entity-a")]) ∧
    (Storage.handle
        ((Storage.handle
            ((Storage.handle (⟨[], [], []⟩ : S) (.index (.create "a"))).1)
            (.query (.create "entity-a" [("a","1")]))).1)
        (.query (.remove "entity-a"))).1.kv.get "entity-a" = none :=
  ⟨rfl, rfl, rfl⟩

/-- C10: removing an edge writes the (possibly emptied) neighbor set
back under the same key instead of deleting the row: after a
`removeRelationship` both set rows still exist and `hasRelationship`
reports `{exists: false}` for the removed edge (in both directions);
`hasRelationship` answers `NotFound` exactly when no neighbor-set row
exists for the `(node, name)` pair; and batch edge removal likewise
writes every touched set row back. -/
theorem C10_remove_keeps_set_row :
    (∀ (s : S) (a b n1 n2 : String),
      (((RelH.removeRelationship s a b n1 n2).1.kv.get (RelH.relId n1 a)).isSome
          = true) ∧
      (((RelH.removeRelationship s a b n1 n2).1.kv.get (RelH.relId n2 b)).isSome
          = true)) ∧
    (∀ (s : S) (a b n1 n2 : String),
      (RelH.hasRelationship (RelH.removeRelationship s a b n1 n2).1 a b n1).2
          = .ok false ∧
      (RelH.hasRelationship (RelH.removeRelationship s a b n1 n2).1 b a n2).2
          = .ok false) ∧
    (∀ (s : S) (nodeA nodeB name : String),
      (RelH.hasRelationship s nodeA nodeB name).2 = .error .notFound ↔
        s.kv.get (RelH.relId name nodeA) = none) ∧
    (∀ (s : S) (tuples : List (String × String)), ∀ p ∈ tuples,
      ((RelH.deleteRelationshipBatch s tuples).kv.get p.1).isSome = true) := by
  refine ⟨?_, ?_, ?_, ?_⟩
  · intro s a b n1 n2
    simp only [RelH.removeRelationship, RelH.deleteRelationship]
    constructor
    · by_cases hxy : RelH.relId n1 a = RelH.relId n2 b
      · rw [← hxy, Kv.get_put_eq]
        rfl
      · rw [Kv.get_put_ne _ _ _ _ hxy, Kv.get_put_eq]
        rfl
    · rw [Kv.get_put_eq]
      rfl
  · intro s a b n1 n2
    simp only [RelH.removeRelationship, RelH.deleteRelationship,
      RelH.hasRelationship]
    constructor
    · by_cases hxy : RelH.relId n1 a = RelH.relId n2 b
      · rw [← hxy, Kv.get_put_eq, Kv.get_put_eq]
        exact congrArg Except.ok (contains_eq_false_of_not_mem _ _
          (fun hb => not_mem_setDel _ b ((List.mem_filter.mp hb).1)))
      · rw [Kv.get_put_ne _ _ _ _ hxy, Kv.get_put_eq]
        exact congrArg Except.ok
          (contains_eq_false_of_not_mem _ _ (not_mem_setDel _ b))
    · rw [Kv.get_put_eq]
      exact congrArg Except.ok
        (contains_eq_false_of_not_mem _ _ (not_mem_setDel _ a))
  · intro s nodeA nodeB name
    simp only [RelH.hasRelationship]
    cases h : s.kv.get (RelH.relId name nodeA) <;> simp
  · intro s tuples p hp
    simp only [RelH.deleteRelationshipBatch]
    apply doChunkedWrite_get_isSome
    have h1 : p.1 ∈ (RelH.mergeRelations
        (Batched.doChunkedRead s (tuples.map Prod.fst)).1 tuples
        (fun all target => if target ∈ all then setDel all target else all)).keys := by
      simp only [RelH.mergeRelations]
      exact (mem_keys_foldl_set tuples Prod.fst _ []).2 p hp
    simpa [Rec.keys, List.map_map, Function.comp] using h1

/-- C10 witness: a concrete edge removed from a one-edge store, plus a
concrete batch removal. -/
theorem C10_remove_keeps_set_row_witness :
    ((RelH.hasRelationship
        (RelH.removeRelationship
          (RelH.createRelationship (⟨[], [], []⟩ : S) "a" "b" "parent" "child").1
          "a" "b" "parent" "child").1
        "a" "b" "parent").2 = .ok false) ∧
    (((RelH.deleteRelationshipBatch (⟨[], [], []⟩ : S)
        [(RelH.relId "parent" "a", "b")]).kv.get (RelH.relId "parent" "a")).isSome
      = true) :=
  ⟨(C10_remove_keeps_set_row.2.1
      (RelH.createRelationship (⟨[], [], []⟩ : S) "a" "b" "parent" "child").1
      "a" "b" "parent" "child").1,
   C10_remove_keeps_set_row.2.2.2 (⟨[], [], []⟩ : S)
      [(RelH.relId "parent" "a", "b")] (RelH.relId "parent" "a", "b")
      (List.mem_singleton.mpr rfl)⟩

theorem paginateRelationships_badRequest (rels : List String)
    (first last : Option Nat) (before after : Option String)
    (h : (natTruthy first ∧ strTruthy before) ∨ (natTruthy last ∧ strTruthy after)
      ∨ (natTruthy first ∧ natTruthy last)) :
    RelH.paginateRelationships rels first last before after
      = .error .badRequest := by
  unfold RelH.paginateRelationships
  by_cases h1 : natTruthy first ∧ strTruthy before
  · simp [h1]
  · by_cases h2 : natTruthy last ∧ strTruthy after
    · simp [h1, h2]
    · have h3 : natTruthy first ∧ natTruthy last := by tauto
      simp [h1, h2, h3]

theorem getPaginatedItems_badRequest (s : S) (pre : String)
    (first last : Option Nat) (before after : Option String)
    (h : (natTruthy first ∧ strTruthy before) ∨ (natTruthy last ∧ strTruthy after)
      ∨ (natTruthy first ∧ natTruthy last)) :
    QueryH.getPaginatedItems s first before last after pre
      = .error .badRequest := by
  unfold QueryH.getPaginatedItems
  by_cases h1 : natTruthy first ∧ strTruthy before
  · simp [h1]
  · by_cases h2 : natTruthy last ∧ strTruthy after
    · simp [h1, h2]
    · have h3 : natTruthy first ∧ natTruthy last := by tauto
      simp [h1, h2, h3]

/-- C6: a relationship list, and an entity list taking the paginated
path (no range query), that supplies `first` together with `before`,
`last` together with `after`, or `first` together with `last` (with
positive limits and nonempty cursors) fails with `BadRequest`. -/
theorem C6_forbidden_combinations (first last : Option Nat)
    (before after : Option String)
    (h : (natTruthy first ∧ strTruthy before) ∨ (natTruthy last ∧ strTruthy after)
      ∨ (natTruthy first ∧ natTruthy last)) :
    (∀ (s : S) (name node : String),
      (RelH.listRelationship s name node first last before after).2
        = .error .badRequest) ∧
    (∀ (s : S) (key index : Option String),
      (QueryH.listQuery s key index first last before after none).2
        = .error .badRequest) := by
  constructor
  · intro s name node
    simp only [RelH.listRelationship]
    exact paginateRelationships_badRequest _ first last before after h
  · intro s key index
    simp only [QueryH.listQuery]
    rw [getPaginatedItems_badRequest s _ first last before after h]
    rfl

/-- C6 witness: `first` together with `before` on concrete requests. -/
theorem C6_forbidden_combinations_witness :
    (RelH.listRelationship ⟨[], [], []⟩ "child" "n" (some 1) none (some "b")
        none).2 = .error .badRequest ∧
    (QueryH.listQuery ⟨[], [], []⟩ (some "e") none (some 1) none (some "b")
        none none).2 = .error .badRequest :=
  ⟨(C6_forbidden_combinations (some 1) none (some "b") none
      (Or.inl ⟨by decide, by decide⟩)).1 ⟨[], [], []⟩ "child" "n",
   (C6_forbidden_combinations (some 1) none (some "b") none
      (Or.inl ⟨by decide, by decide⟩)).2 ⟨[], [], []⟩ (some "e") none⟩

theorem Rec.get_eq_none_of_not_mem_keys {α : Type} (r : Rec α) (k : String)
    (h : k ∉ r.keys) : r.get k = none := by
  cases hg : r.get k with
  | none => rfl
  | some v =>
    exact absurd ((Rec.get_isSome_iff_mem_keys r k).mp (by simp [hg])) h

/-- Reading a record back through its own key list reproduces the
record, when its keys are distinct (as they are for a parsed JSON
object). -/
theorem filterMap_get_self (body : Rec KVal) (h : (body.map Prod.fst).Nodup) :
    (Rec.keys body).filterMap (fun k => (Rec.get body k).map ((k, ·))) = body := by
  induction body with
  | nil => simp [Rec.keys]
  | cons hd tl ih =>
    obtain ⟨k0, v0⟩ := hd
    rw [List.map_cons, List.nodup_cons] at h
    obtain ⟨h0, h1⟩ := h
    have hget0 : Rec.get ((k0, v0) :: tl) k0 = some v0 := by
      simp [Rec.get, List.find?]
    simp only [Rec.keys, List.map_cons, List.filterMap_cons, hget0, Option.map_some']
    congr 1
    have hcongr : ∀ k ∈ tl.map Prod.fst,
        (Rec.get ((k0, v0) :: tl) k).map ((k, ·)) = (Rec.get tl k).map ((k, ·)) := by
      intro k hk
      have hne : ¬ (k0 = k) := fun hh : k0 = k => h0 (hh ▸ hk)
      simp only [Rec.get, List.find?]
      rw [show decide (k0 = k) = false from by simp [hne]]
    rw [List.filterMap_congr hcongr]
    exact ih h1

/-- A fold of puts of a duplicate-free record: its own bindings win,
everything else keeps the prior value. -/
theorem get_foldl_put_nodup (entries : Rec KVal) (kv : Kv) (k : String)
    (h : (entries.map Prod.fst).Nodup) :
    (entries.foldl (fun kv p => kv.put p.1 p.2) kv).get k
      = match Rec.get entries k with
        | some v => some v
        | none => kv.get k := by
  induction entries generalizing kv with
  | nil => simp [Rec.get]
  | cons hd rest ih =>
    obtain ⟨k0, v0⟩ := hd
    rw [List.map_cons, List.nodup_cons] at h
    obtain ⟨h0, h1⟩ := h
    simp only [List.foldl_cons]
    rw [ih _ h1]
    by_cases hk : k = k0
    · subst hk
      have hrest : Rec.get rest k = none :=
        Rec.get_eq_none_of_not_mem_keys rest k (by simpa [Rec.keys] using h0)
      rw [hrest]
      have hhead : Rec.get ((k, v0) :: rest) k = some v0 := by
        simp [Rec.get, List.find?]
      rw [hhead, Kv.get_put_eq]
    · have hhead : Rec.get ((k0, v0) :: rest) k = Rec.get rest k := by
        simp only [Rec.get, List.find?]
        rw [show decide (k0 = k) = false from
          decide_eq_false (fun hh => hk hh.symm)]
      rw [hhead, Kv.get_put_ne _ _ _ _ hk]

/-- The KV mapping produced by restoring a duplicate-free image into an
empty namespace is exactly that image. -/
theorem doChunkedWrite_empty_get (body : Rec KVal) (cache : Cache)
    (idx : Rec Index) (h : (body.map Prod.fst).Nodup) (k : String) :
    (Batched.doChunkedWrite ⟨[], cache, idx⟩ body).kv.get k = Rec.get body k := by
  rw [Batched.doChunkedWrite_eq_single]
  simp only [Batched.writeChunk]
  rw [show Rec.keys body = body.map Prod.fst from rfl] at *
  rw [show (body.map Prod.fst).filterMap (fun k => (Rec.get body k).map ((k, ·)))
      = body from filterMap_get_self body h]
  rw [get_foldl_put_nodup body _ k h]
  cases Rec.get body k <;> rfl

/-- C5: restoring the blob produced by a backup re-establishes exactly
the backed-up KV mapping and returns the number of keys of the blob;
restoring a missing blob yields `NotFound` and changes nothing. (The
side effects on the blob store — the backup itself and the
`before-restore` safety backup — are not constrained.) -/
theorem C5_backup_restore_roundtrip :
    (∀ (fs : FullS) (pid : String) (t1 t2 : Nat),
      (fs.s.kv.map Prod.fst).Nodup →
      (StoreH.backup fs pid t1 none).2 = .ok (StoreH.backupName pid t1 none) ∧
      (StoreH.restore (StoreH.backup fs pid t1 none).1 pid t2
          (StoreH.backupName pid t1 none)).2 = .ok fs.s.kv.length ∧
      (∀ k, (StoreH.restore (StoreH.backup fs pid t1 none).1 pid t2
          (StoreH.backupName pid t1 none)).1.s.kv.get k = fs.s.kv.get k)) ∧
    (∀ (fs : FullS) (pid : String) (t : Nat) (backupId : String),
      fs.blobs.get backupId = none →
      StoreH.restore fs pid t backupId = (fs, .error .notFound)) := by
  constructor
  · intro fs pid t1 t2 h
    have hblob : ((StoreH.backup fs pid t1 none).1.blobs).get
        (StoreH.backupName pid t1 none) = some fs.s.kv := by
      simp only [StoreH.backup]
      exact Rec.get_set_eq _ _ _
    refine ⟨rfl, ?_, ?_⟩
    · simp only [StoreH.restore]
      rw [hblob]
      have : (fs.s.kv.keys).length = fs.s.kv.length := by
        simp [Rec.keys]
      rw [show Rec.keys = fun (r : Kv) => r.map Prod.fst from rfl]
      simp
    · intro k
      simp only [StoreH.restore]
      rw [hblob]
      exact doChunkedWrite_empty_get fs.s.kv _ _ h k
  · intro fs pid t backupId hmiss
    simp only [StoreH.restore]
    rw [hmiss]

/-- C5 witness: a two-entry store round-trips; a missing blob is
`NotFound`. -/
theorem C5_backup_restore_roundtrip_witness :
    ((StoreH.restore
        (StoreH.backup ⟨⟨[("entity-a", .obj [("a","1")])], [], []⟩, []⟩
          "pid" 1000 none).1
        "pid" 2000 (StoreH.backupName "pid" 1000 none)).1.s.kv.get "entity-a"
      = some (.obj [("a","1")])) ∧
    (StoreH.restore (⟨⟨[], [], []⟩, []⟩ : FullS) "pid" 5 "nope"
      = ((⟨⟨[], [], []⟩, []⟩ : FullS), .error .notFound)) :=
  ⟨by
    rw [(C5_backup_restore_roundtrip.1 ⟨⟨[("entity-a", .obj [("a","1")])], [], []⟩, []⟩
      "pid" 1000 2000 (by simp)).2.2 "entity-a"]
    rfl,
   C5_backup_restore_roundtrip.2 ⟨⟨[], [], []⟩, []⟩ "pid" 5 "nope" rfl⟩

/-- C8: `createQuery` returns `value' = {...value, id: value.id ?? key}`
and persists `value'` under the caller key together with one row
`(property--value'[property], value')` for every declared index whose
property occurs in `value'`, leaving every other key unchanged. -/
theorem C8_createQuery_expands_indexes (s : S) (key : String) (value : Obj) :
    (QueryH.createQuery s key value).2
      = .ok (value.set "id" (QueryH.idOrKey value key)) ∧
    (QueryH.createQuery s key value).1.kv.get key
      = some (.obj (value.set "id" (QueryH.idOrKey value key))) ∧
    (∀ p i, p ∈ (value.set "id" (QueryH.idOrKey value key)).keys →
      s.idx.get ("idx:" ++ p) = some i →
      (QueryH.createQuery s key value).1.kv.get
          (IndexH.keyForIndex i.property
            (jsStr ((value.set "id" (QueryH.idOrKey value key)).get i.property)))
        = some (.obj (value.set "id" (QueryH.idOrKey value key)))) ∧
    (∀ k, k ∉ (IndexH.enhanceWritePayload s.idx key
        (value.set "id" (QueryH.idOrKey value key))).keys →
      (QueryH.createQuery s key value).1.kv.get k = s.kv.get k) := by
  set v' := value.set "id" (QueryH.idOrKey value key) with hv'
  set items := IndexH.enhanceWritePayload s.idx key v' with hitems
  have hsnd : ∀ p ∈ items, p.2 = v' := by
    rw [hitems]
    simp only [IndexH.enhanceWritePayload]
    exact forall_snd_foldl_set _ _ v' [(key, v')]
      (by intro p hp; rcases List.mem_singleton.mp hp with h; rw [h])
  have hfold : (QueryH.createQuery s key value).1.kv
      = (items.map (fun p => (p.1, KVal.obj p.2))).foldl
          (fun kv p => kv.put p.1 p.2) s.kv := by
    simp only [QueryH.createQuery, ← hv', ← hitems]
    rw [List.foldl_map]
  have hconst : ∀ k, (QueryH.createQuery s key value).1.kv.get k
      = if k ∈ items.keys then some (.obj v') else s.kv.get k := by
    intro k
    rw [hfold, Kv.get_foldl_put_const _ (KVal.obj v')]
    · have : (items.map (fun p => (p.1, KVal.obj p.2))).map Prod.fst = items.keys := by
        simp [Rec.keys, List.map_map, Function.comp]
      rw [this]
    · intro q hq
      obtain ⟨p, hp, hpq⟩ := List.mem_map.mp hq
      rw [← hpq]
      simp [hsnd p hp]
  refine ⟨rfl, ?_, ?_, ?_⟩
  · rw [hconst key, if_pos]
    rw [hitems]
    simp only [IndexH.enhanceWritePayload]
    exact (mem_keys_foldl_set _ _ _ [(key, v')]).1 key (by simp [Rec.keys])
  · intro p i hp hi
    rw [hconst, if_pos]
    rw [hitems]
    simp only [IndexH.enhanceWritePayload]
    refine (mem_keys_foldl_set _ _ _ [(key, v')]).2 i ?_
    simp only [IndexH.getApplicableIndexes]
    exact List.mem_filterMap.mpr ⟨p, hp, hi⟩
  · intro k hk
    rw [hconst, if_neg hk]

/-- C8 witness: one declared index on `a`, a payload containing `a`. -/
theorem C8_createQuery_expands_indexes_witness :
    (QueryH.createQuery ⟨[], [], [("idx:a", ⟨"idx:a", "a"⟩)]⟩ "e"
        [("a","7")]).1.kv.get "a--7"
      = some (.obj [("a","7"),("id","e")]) :=
  (C8_createQuery_expands_indexes ⟨[], [], [("idx:a", ⟨"idx:a", "a"⟩)]⟩ "e"
      [("a","7")]).2.2.1 "a" ⟨"idx:a", "a"⟩ (by simp [Rec.keys, Rec.set])
    (by simp [Rec.get, List.find?])

/-- C4 counterexample: over the set `{x1,x2,x3,x4}`, (a) `after = "x2"`
with neither `first` nor `last` returns the FULL array — the claimed
window starting at `idxOf(after)+1` would be `[x3, x4]`; (b) `before =
"x3"` with `last = 4` returns `[]` — the slice start `end-last+1 = -2`
wraps JS-style to index 2 — while the claimed window `[x1, x2]` trimmed
to its last 4 elements would be `[x1, x2]` itself. -/
theorem C4_counterexample :
    ((RelH.listRelationship
        ⟨[("relationship$n$child", .set ["x1","x2","x3","x4"])], [], []⟩
        "child" "n" none none none (some "x2")).2
      = .ok ⟨["x1","x2","x3","x4"], true, false⟩ ∧
      (["x1","x2","x3","x4"] : List String) ≠ ["x3","x4"]) ∧
    ((RelH.listRelationship
        ⟨[("relationship$n$child", .set ["x1","x2","x3","x4"])], [], []⟩
        "child" "n" none (some 4) (some "x3") none).2
      = .ok ⟨[], false, true⟩ ∧
      ([] : List String) ≠ ["x1","x2"]) :=
  ⟨⟨rfl, by decide⟩, ⟨rfl, by decide⟩⟩

/-- C4 (amended): reading a relationship list over a stored neighbor
set, when no forbidden parameter combination is supplied: if every
truthy cursor is a member of the set — and, when `last` is supplied, the
slice start `endIdx - last + 1` is nonnegative — the returned page is
exactly `amendedPage`: the window trimmed to `first` elements from the
start position when `first` is supplied, the `last` elements ending at
the end position when `last` is supplied, and the FULL array otherwise
(the claimed untrimmed window is wrong there), with `hasBefore` =
start > 0 and `hasAfter` = end < length - 1; and a truthy cursor absent
from the set yields `NotFound`. -/
theorem C4_pagination_window :
    (∀ (s : S) (name node : String) (rels : List String)
        (first last : Option Nat) (before after : Option String),
      s.kv.get (RelH.relId name node) = some (.set rels) →
      ¬(natTruthy first ∧ strTruthy before) →
      ¬(natTruthy last ∧ strTruthy after) →
      ¬(natTruthy first ∧ natTruthy last) →
      (strTruthy after → jsStr after ∈ rels) →
      (strTruthy before → jsStr before ∈ rels) →
      (natTruthy last →
        0 ≤ RelH.endIdx rels before - (last.getD 0 : Int) + 1) →
      (RelH.listRelationship s name node first last before after).2
        = .ok (RelH.amendedPage rels first last before after)) ∧
    (∀ (s : S) (name node : String) (rels : List String)
        (first last : Option Nat) (before after : Option String),
      s.kv.get (RelH.relId name node) = some (.set rels) →
      ¬(natTruthy first ∧ strTruthy before) →
      ¬(natTruthy last ∧ strTruthy after) →
      ¬(natTruthy first ∧ natTruthy last) →
      (strTruthy after ∧ jsStr after ∉ rels ∨
        strTruthy before ∧ jsStr before ∉ rels ∧
          (strTruthy after → jsStr after ∈ rels)) →
      (RelH.listRelationship s name node first last before after).2
        = .error .notFound) := by
  constructor
  · intro s name node rels first last before after hrels hfb hla hfl ha hb hl
    simp only [RelH.listRelationship, hrels]
    exact paginate_window rels first last before after hfb hla hfl ha hb hl
  · intro s name node rels first last before after hrels hfb hla hfl hcase
    simp only [RelH.listRelationship, hrels]
    rcases hcase with ⟨ha, hm⟩ | ⟨hb, hm, ha⟩
    · exact paginate_notFound_after rels first last before after hfb hla hfl ha hm
    · exact paginate_notFound_before rels first last before after hfb hla hfl hb hm ha

/-- C4 witness: `first = 2` with `after = "x1"` over `{x1,x2,x3,x4}`
pages to `[x2, x3]` with more on both sides; a missing cursor is
`NotFound`. -/
theorem C4_pagination_window_witness :
    ((RelH.listRelationship
        ⟨[("relationship$n$child", .set ["x1","x2","x3","x4"])], [], []⟩
        "child" "n" (some 2) none none (some "x1")).2
      = .ok ⟨["x2","x3"], true, true⟩) ∧
    ((RelH.listRelationship
        ⟨[("relationship$n$child", .set ["x1","x2"])], [], []⟩
        "child" "n" none none none (some "zz")).2
      = .error .notFound) := by
  constructor
  · have h := C4_pagination_window.1
      ⟨[("relationship$n$child", .set ["x1","x2","x3","x4"])], [], []⟩
      "child" "n" ["x1","x2","x3","x4"] (some 2) none none (some "x1")
      rfl (by decide) (by decide) (by decide)
      (fun _ => by decide)
      (by intro h; exact absurd h (by decide))
      (by intro h; exact absurd h (by decide))
    rw [h]
    rfl
  · exact C4_pagination_window.2
      ⟨[("relationship$n$child", .set ["x1","x2"])], [], []⟩
      "child" "n" ["x1","x2"] none none none (some "zz")
      rfl (by decide) (by decide) (by decide)
      (Or.inl ⟨by decide, by decide⟩)

end GraphStore
